import Mathlib

/-!
Shallow embedding of the libvhost-user core in Lean 4, together with theorems
settling the specification claims about it.

The embedding covers:
* the guest memory map (virtio/memory.c): region insertion and gpa-range lookup;
* the virtqueue engine (virtio/virtqueue.c): descriptor-chain iteration,
  dequeue from the avail ring, and the used-ring publication;
* the virtio-blk request parser (blk request handling translation unit);
* the vhost-user per-vring control handlers (protocol translation unit).

Machine integers are modelled as Nat with explicit reductions modulo 2 to the
width wherever the C program can wrap.  Guest and host memory contents that the
code reads are modelled as total functions supplied by a World structure, at the
granularity the code reads them (descriptor records, block request headers);
the used ring, which the code writes byte by byte through overlapping struct
views, is modelled as a byte list.
-/

namespace LibVhost

def U16 : Nat := 2 ^ 16

def U32 : Nat := 2 ^ 32

def U64 : Nat := 2 ^ 64

/-- Wrapping u64 subtraction a - b as the C abstract machine computes it. -/
def sub64 (a b : Nat) : Nat := (a + U64 - b % U64) % U64

/-! ## Guest memory map (virtio/memory.c) -/

structure virtio_memory_region where
  gpa : Nat
  len : Nat
  hva : Nat
  ro : Bool
deriving DecidableEq, Repr

/-- Faithful model of region_contains_gpa: gpa is at least the base and at most
    the u64 value of base + len - 1 (which wraps for len = 0 or oversized regions). -/
def region_contains_gpa (mr : virtio_memory_region) (gpa : Nat) : Bool :=
  decide (mr.gpa ≤ gpa) && decide (gpa ≤ (mr.gpa + mr.len + (U64 - 1)) % U64)

/-- Faithful model of are_overlapping_regions: order the two regions by gpa and
    test the second base against the u64 value of first base + len - 1. -/
def are_overlapping_regions (r1 r2 : virtio_memory_region) : Bool :=
  let lo := if r2.gpa < r1.gpa then r2 else r1
  let hi := if r2.gpa < r1.gpa then r1 else r2
  decide (hi.gpa ≤ (lo.gpa + lo.len + (U64 - 1)) % U64)

def overlaps_prev (prev : Option virtio_memory_region) (mr : virtio_memory_region) : Bool :=
  match prev with
  | none => false
  | some p => are_overlapping_regions p mr

/-- Recursive rendering of the insertion scan of virtio_add_guest_region: walk to
    the first position whose region base exceeds the new gpa, then test overlap
    against the previous region (carried along) and the next region (list head).
    An error leaves the region list unchanged at the caller. -/
def insert_region (prev : Option virtio_memory_region) (rs : List virtio_memory_region)
    (mr : virtio_memory_region) : Except Int (List virtio_memory_region) :=
  match rs with
  | [] => if overlaps_prev prev mr then .error (-22) else .ok [mr]
  | r :: rest =>
    if mr.gpa < r.gpa then
      if are_overlapping_regions r mr || overlaps_prev prev mr then .error (-22)
      else .ok (mr :: r :: rest)
    else
      match insert_region (some r) rest mr with
      | .ok rest2 => .ok (r :: rest2)
      | .error e => .error e

def VIRTIO_MEMORY_MAX_REGIONS : Nat := 16

/-- Model of virtio_add_guest_region.  Returns the new region list, or the errno
    of the rejection (the C code leaves the map unmodified in that case). -/
def virtio_add_guest_region (mem : List virtio_memory_region) (gpa len hva : Nat)
    (ro : Bool) : Except Int (List virtio_memory_region) :=
  if mem.length = VIRTIO_MEMORY_MAX_REGIONS then .error (-28)
  else insert_region none mem (virtio_memory_region.mk gpa len hva ro)

/-- Model of find_region: the suffix of the region list starting at the first
    region that contains gpa, or none when no region does. -/
def find_region_suffix (rs : List virtio_memory_region) (gpa : Nat) :
    Option (virtio_memory_region × List virtio_memory_region) :=
  match rs with
  | [] => none
  | mr :: rest =>
    if region_contains_gpa mr gpa then some (mr, rest) else find_region_suffix rest gpa

/-- The consuming loop of virtio_find_gpa_range, returning the residual length at
    loop exit (zero means the whole range was resolved). -/
def find_gpa_loop (gpa len : Nat) (ro : Bool) (rs : List virtio_memory_region) : Nat :=
  match rs with
  | [] => len
  | mr :: rest =>
    if !ro && mr.ro then len
    else
      let remaining := sub64 mr.len (sub64 gpa mr.gpa)
      let consumed := min len remaining
      let len2 := len - consumed
      let gpa2 := (gpa + consumed) % U64
      if len2 = 0 then 0
      else
        match rest with
        | [] => len2
        | next :: _ =>
          if next.gpa ≠ (mr.gpa + mr.len) % U64 then len2
          else find_gpa_loop gpa2 len2 ro rest

/-- Model of virtio_find_gpa_range.  Some hva means the range resolved to the
    host address hva; none is MAP_FAILED. -/
def virtio_find_gpa_range (mem : List virtio_memory_region) (gpa len : Nat)
    (ro : Bool) : Option Nat :=
  if len = 0 then none
  else
    match find_region_suffix mem gpa with
    | none => none
    | some (mr, rest) =>
      let res := mr.hva + sub64 gpa mr.gpa
      if find_gpa_loop gpa len ro (mr :: rest) = 0 then some res else none

/-! ## Used ring publication (virtio/virtqueue.c), byte-level

The used ring area starts with the u16 header fields flags (offset 0) and idx
(offset 2), followed by the ring of 8-byte elements: element i occupies offsets
4 + 8*i .. 4 + 8*i + 7 with the le32 id first and the le32 len second. -/

def wbyte (m : List Nat) (i v : Nat) : List Nat := m.set i v

def wu16 (m : List Nat) (i v : Nat) : List Nat :=
  wbyte (wbyte m i (v % 256)) (i + 1) (v / 256 % 256)

def wu32 (m : List Nat) (i v : Nat) : List Nat :=
  wbyte (wbyte (wbyte (wbyte m i (v % 256)) (i + 1) (v / 256 % 256))
    (i + 2) (v / 65536 % 256)) (i + 3) (v / 16777216 % 256)

def ru16 (m : List Nat) (i : Nat) : Nat := m.getD i 0 + 256 * m.getD (i + 1) 0

/-- Faithful byte-level model of the C virtqueue_enqueue_used: it reads the used
    index from offset 2, then stores a 4-byte struct virtq_used value, with flags
    set to desc_id and idx set to nwritten truncated to u16, at byte offset
    4 * (used_idx masked by qsize - 1) because the code indexes vq.used itself as
    an array instead of its ring member, and finally stores used_idx + 1 at
    offset 2. -/
def virtqueue_enqueue_used (qsize : Nat) (used : List Nat) (desc_id nwritten : Nat) :
    List Nat :=
  let used_idx := ru16 used 2
  let off := 4 * (used_idx &&& (qsize - 1))
  let m := wu16 (wu16 used off (desc_id % U16)) (off + 2) (nwritten % U16)
  wu16 m 2 ((used_idx + 1) % U16)

/-- Modelled from the claim: the used-ring entry write the specification
    describes, namely ring[used_idx masked by qsize - 1] receives the pair of
    le32 values id = desc_id and len = nwritten at byte offset 4 + 8 * slot,
    leaving the flags and idx header untouched by the entry write, after which
    idx at offset 2 is incremented by one. -/
def enqueue_used_ring_claim (qsize : Nat) (used : List Nat) (desc_id nwritten : Nat) :
    List Nat :=
  let used_idx := ru16 used 2
  let off := 4 + 8 * (used_idx &&& (qsize - 1))
  let m := wu32 (wu32 used off (desc_id % U16)) (off + 4) (nwritten % U32)
  wu16 m 2 ((used_idx + 1) % U16)

/-! ## Descriptor chains and the iterator (virtio/virtqueue.c) -/

def VIRTQ_DESC_F_NEXT : Nat := 1

def VIRTQ_DESC_F_WRITE : Nat := 2

def VIRTQ_DESC_F_INDIRECT : Nat := 4

def VIRTQ_MAX_SIZE : Nat := 32768

def VIRTQ_INVALID_DESC_ID : Nat := 32768

structure virtq_desc where
  addr : Nat
  len : Nat
  flags : Nat
  next : Nat
deriving DecidableEq, Repr

structure virtio_blk_req where
  type : Nat
  reserved : Nat
  sector : Nat
deriving DecidableEq, Repr

/-- Contents of guest memory as seen through host virtual addresses, at the
    granularity the code reads it: the 16-byte descriptor record starting at a
    host address, and the 16-byte virtio-blk request header starting at a host
    address. -/
structure World where
  hostDesc : Nat → virtq_desc
  hostBlkReq : Nat → virtio_blk_req

/-- Reads of C struct fields yield values of the field widths. -/
def normDesc (d : virtq_desc) : virtq_desc :=
  virtq_desc.mk (d.addr % U64) (d.len % U32) (d.flags % U16) (d.next % U16)

/-- The descriptor-table access ptbl[idx]: a 16-byte record at ptbl + 16 * idx. -/
def readDesc (w : World) (tbl idx : Nat) : virtq_desc := normDesc (w.hostDesc (tbl + 16 * idx))

def readBlkReq (w : World) (p : Nat) : virtio_blk_req :=
  let h := w.hostBlkReq p
  virtio_blk_req.mk (h.type % U32) (h.reserved % U32) (h.sector % U64)

structure virtqueue where
  mem : List virtio_memory_region
  descTbl : Nat
  qsize : Nat
  availIdx : Nat
  availRing : Nat → Nat
  last_seen_avail : Nat
  is_broken : Bool

structure virtqueue_buffer where
  ptr : Nat
  len : Nat
  ro : Bool
deriving DecidableEq, Repr

structure virtqueue_buffer_iter where
  head : Nat
  cur : Nat
  ptbl : Nat
  tbl_size : Nat
  is_indirect : Bool
  nseen : Nat
deriving DecidableEq, Repr

def hasFlag (flags bit : Nat) : Bool := decide (flags &&& bit ≠ 0)

/-- map_buffer: resolve the descriptor buffer through the memory map, requesting
    write access exactly when the descriptor has the WRITE flag. -/
def map_buffer (vq : virtqueue) (d : virtq_desc) : Option Nat :=
  virtio_find_gpa_range vq.mem d.addr d.len (decide ((d.flags &&& VIRTQ_DESC_F_WRITE) = 0))

/-- The mark_broken exit of virtqueue_next_buffer: flag the queue broken and
    park the iterator on the invalid descriptor id. -/
def brokenResult (vq : virtqueue) (it : virtqueue_buffer_iter) :
    Option virtqueue_buffer × virtqueue × virtqueue_buffer_iter :=
  (none, { vq with is_broken := true }, { it with cur := VIRTQ_INVALID_DESC_ID })

/-- The tail of virtqueue_next_buffer after the indirection loop: count the
    descriptor, enforce the chain-length bound, reject zero length, resolve the
    buffer, and either follow the next link (bounds-checked) or end the chain. -/
def yield_phase (vq : virtqueue) (it0 : virtqueue_buffer_iter) (pcur : virtq_desc) :
    Option virtqueue_buffer × virtqueue × virtqueue_buffer_iter :=
  if vq.qsize < it0.nseen + 1 then brokenResult vq { it0 with nseen := it0.nseen + 1 }
  else if pcur.len = 0 then brokenResult vq { it0 with nseen := it0.nseen + 1 }
  else
    match map_buffer vq pcur with
    | none => brokenResult vq { it0 with nseen := it0.nseen + 1 }
    | some hva =>
      if hasFlag pcur.flags VIRTQ_DESC_F_NEXT then
        if it0.tbl_size ≤ pcur.next then brokenResult vq { it0 with nseen := it0.nseen + 1 }
        else
          (some (virtqueue_buffer.mk hva pcur.len
            (decide ((pcur.flags &&& VIRTQ_DESC_F_WRITE) = 0))),
            vq, { it0 with cur := pcur.next, nseen := it0.nseen + 1 })
      else
        (some (virtqueue_buffer.mk hva pcur.len
          (decide ((pcur.flags &&& VIRTQ_DESC_F_WRITE) = 0))),
          vq, { it0 with cur := VIRTQ_INVALID_DESC_ID, nseen := it0.nseen + 1 })

/-- The body of the while loop of virtqueue_next_buffer for a descriptor whose
    INDIRECT flag is set: reject nested indirection, INDIRECT plus NEXT, an
    empty table and an unmapped table; otherwise move the iterator into the
    indirect table (counting the transition in nseen), re-read entry 0, reject
    it if it is indirect again, and otherwise process it as the next buffer. -/
def enter_indirect (w : World) (vq : virtqueue) (it : virtqueue_buffer_iter)
    (pcur : virtq_desc) :
    Option virtqueue_buffer × virtqueue × virtqueue_buffer_iter :=
  if it.is_indirect then brokenResult vq it
  else if hasFlag pcur.flags VIRTQ_DESC_F_NEXT then brokenResult vq it
  else if pcur.len / 16 = 0 then brokenResult vq it
  else
    match map_buffer vq pcur with
    | none => brokenResult vq it
    | some hva =>
      if hasFlag (readDesc w hva 0).flags VIRTQ_DESC_F_INDIRECT then
        brokenResult vq
          (virtqueue_buffer_iter.mk it.head 0 hva (pcur.len / 16) true (it.nseen + 1))
      else
        yield_phase vq
          (virtqueue_buffer_iter.mk it.head 0 hva (pcur.len / 16) true (it.nseen + 1))
          (readDesc w hva 0)

/-- Faithful model of virtqueue_next_buffer.  The C while loop over the INDIRECT
    flag runs at most two iterations (a second indirect descriptor is rejected),
    so it is written unrolled through enter_indirect: at most one transition
    into an indirect table, followed by a re-read of its entry 0. -/
def virtqueue_next_buffer (w : World) (vq : virtqueue) (it : virtqueue_buffer_iter) :
    Option virtqueue_buffer × virtqueue × virtqueue_buffer_iter :=
  if vq.is_broken = true then (none, vq, it)
  else if it.cur = VIRTQ_INVALID_DESC_ID then (none, vq, it)
  else if hasFlag (readDesc w it.ptbl it.cur).flags VIRTQ_DESC_F_INDIRECT then
    enter_indirect w vq it (readDesc w it.ptbl it.cur)
  else yield_phase vq it (readDesc w it.ptbl it.cur)

/-- The raw descriptor-table reads one call of virtqueue_next_buffer performs,
    as pairs of the index used and the size of the table indexed: the entry
    access at the current id, plus, when the call transitions into an indirect
    table, the access at entry 0 of that table. -/
def next_buffer_desc_reads (w : World) (vq : virtqueue) (it : virtqueue_buffer_iter) :
    List (Nat × Nat) :=
  if vq.is_broken then []
  else if it.cur = VIRTQ_INVALID_DESC_ID then []
  else
    let pcur := readDesc w it.ptbl it.cur
    if hasFlag pcur.flags VIRTQ_DESC_F_INDIRECT then
      if it.is_indirect then [(it.cur, it.tbl_size)]
      else if hasFlag pcur.flags VIRTQ_DESC_F_NEXT then [(it.cur, it.tbl_size)]
      else if pcur.len / 16 = 0 then [(it.cur, it.tbl_size)]
      else
        match map_buffer vq pcur with
        | none => [(it.cur, it.tbl_size)]
        | some _ => [(it.cur, it.tbl_size), (0, pcur.len / 16)]
    else [(it.cur, it.tbl_size)]

def virtqueue_has_next_buffer (it : virtqueue_buffer_iter) : Bool :=
  decide (it.cur ≠ VIRTQ_INVALID_DESC_ID)

def start_desc_chain (vq : virtqueue) (head : Nat) : virtqueue_buffer_iter :=
  virtqueue_buffer_iter.mk head head vq.descTbl vq.qsize false 0

def get_index (vq : virtqueue) (idx : Nat) : Nat := idx &&& (vq.qsize - 1)

/-- Model of virtqueue_dequeue_avail: none corresponds to returning false. -/
def virtqueue_dequeue_avail (vq : virtqueue) :
    Option (virtqueue × virtqueue_buffer_iter) :=
  if vq.is_broken then none
  else if vq.last_seen_avail % U16 ≠ vq.availIdx % U16 then
    let head := vq.availRing (get_index vq vq.last_seen_avail) % U16
    some ({ vq with last_seen_avail := (vq.last_seen_avail + 1) % U16 },
          start_desc_chain vq head)
  else none

/-- Run n calls of virtqueue_next_buffer, collecting the yielded buffers. -/
def runIter (w : World) : Nat → virtqueue → virtqueue_buffer_iter →
    List virtqueue_buffer × virtqueue × virtqueue_buffer_iter
  | 0, vq, it => ([], vq, it)
  | n + 1, vq, it =>
    match virtqueue_next_buffer w vq it with
    | (some b, vq2, it2) =>
      let r := runIter w n vq2 it2
      (b :: r.1, r.2.1, r.2.2)
    | (none, vq2, it2) =>
      let r := runIter w n vq2 it2
      (r.1, r.2.1, r.2.2)

/-- The queue and iterator after n calls of virtqueue_next_buffer. -/
def iterState (w : World) : Nat → virtqueue × virtqueue_buffer_iter →
    virtqueue × virtqueue_buffer_iter
  | 0, s => s
  | n + 1, s =>
    let r := virtqueue_next_buffer w s.1 s.2
    iterState w n (r.2.1, r.2.2)

/-- The value returned by call number n + 1 (that is, after n earlier calls). -/
def callResult (w : World) (n : Nat) (s : virtqueue × virtqueue_buffer_iter) :
    Option virtqueue_buffer :=
  (virtqueue_next_buffer w (iterState w n s).1 (iterState w n s).2).1

/-! ## Virtio-blk device model and request parser -/

def VIRTIO_BLK_F_RO : Nat := 5

def VIRTIO_BLK_F_BLK_SIZE : Nat := 6

def VIRTIO_BLK_F_FLUSH : Nat := 9

def VIRTIO_BLK_T_IN : Nat := 0

def VIRTIO_BLK_T_OUT : Nat := 1

def VIRTIO_BLK_T_FLUSH : Nat := 4

structure virtio_blk where
  total_sectors : Nat
  block_size : Nat
  readonly : Bool
  writeback : Bool
  supported_features : Nat
  features : Nat
deriving DecidableEq, Repr

/-- Faithful model of virtio_blk_init.  Note that the readonly branch mirrors
    the C statement that ors the plain constant VIRTIO_BLK_F_RO into the feature
    set, while the writeback branch shifts one left by VIRTIO_BLK_F_FLUSH. -/
def virtio_blk_init (vblk : virtio_blk) : Except Int virtio_blk :=
  if vblk.block_size = 0 ∨ vblk.block_size &&& 511 ≠ 0 then .error (-22)
  else if vblk.total_sectors = 0 then .error (-22)
  else
    let s0 := 1 <<< VIRTIO_BLK_F_BLK_SIZE
    let s1 := if vblk.readonly then s0 ||| VIRTIO_BLK_F_RO else s0
    let s2 := if vblk.writeback then s1 ||| (1 <<< VIRTIO_BLK_F_FLUSH) else s1
    .ok { vblk with supported_features := s2, features := 0 }

/-- Model of virtio_blk_set_features: reject any feature word with a bit outside
    the advertised set (the C test features and-not supported, in u64). -/
def virtio_blk_set_features (vblk : virtio_blk) (features : Nat) : Except Int virtio_blk :=
  if features % U64 &&& ((U64 - 1) ^^^ vblk.supported_features % U64) ≠ 0 then .error (-22)
  else .ok { vblk with features := features % U64 }

structure virtio_iovec where
  ptr : Nat
  len : Nat
deriving DecidableEq, Repr

structure blk_io_request where
  type : Nat
  sector : Nat
  total_sectors : Nat
  vecs : List virtio_iovec
deriving DecidableEq, Repr

structure virtio_blk_io where
  pstatus : Nat
  head : Nat
  bio : blk_io_request
deriving DecidableEq, Repr

/-- The buffer-walking while loop of blk_rw.  Each pass pulls one buffer from
    the chain.  A buffer that is the last of the chain must be a writable
    one-byte status buffer and ends the loop; the loop then fails if no data
    buffer was seen.  Any other buffer is a data buffer and must have a nonzero
    512-multiple length, must not be read-only on a write request, and must
    keep the sector range inside the device.  The fuel argument dominates the
    number of loop passes; the chain iterator yields at most qsize buffers, so
    qsize + 2 fuel is never exhausted. -/
def blk_rw_loop (w : World) (vblk : virtio_blk) (is_read : Bool) (sector : Nat) :
    Nat → virtqueue → virtqueue_buffer_iter → Nat → List virtio_iovec →
    Option (Nat × Nat × List virtio_iovec) × virtqueue × virtqueue_buffer_iter
  | 0, vq, it, _, _ => (none, vq, it)
  | fuel + 1, vq, it, total, vecs =>
    match virtqueue_next_buffer w vq it with
    | (none, vq2, it2) => (none, vq2, it2)
    | (some buf, vq2, it2) =>
      if !virtqueue_has_next_buffer it2 then
        if buf.len ≠ 1 ∨ buf.ro then (none, vq2, it2)
        else if total = 0 then (none, vq2, it2)
        else (some (total, buf.ptr, vecs), vq2, it2)
      else
        if buf.len = 0 ∨ buf.len &&& 511 ≠ 0 then (none, vq2, it2)
        else if !is_read && buf.ro then (none, vq2, it2)
        else
          let total2 := (total + buf.len >>> 9) % U32
          if vblk.total_sectors < (sector + total2) % U64 then (none, vq2, it2)
          else blk_rw_loop w vblk is_read sector fuel vq2 it2 total2
            (vecs ++ [virtio_iovec.mk buf.ptr buf.len])

/-- Model of blk_rw: reject an out-of-range start sector up front, walk the
    chain, and on success assemble the bio.  none is the NULL return, after
    which the caller publishes nothing to the used ring. -/
def blk_rw (w : World) (vblk : virtio_blk) (hdr : virtio_blk_req) (vq : virtqueue)
    (it : virtqueue_buffer_iter) :
    Option virtio_blk_io × virtqueue × virtqueue_buffer_iter :=
  let is_read := decide (hdr.type = VIRTIO_BLK_T_IN)
  if vblk.total_sectors ≤ hdr.sector then (none, vq, it)
  else
    match blk_rw_loop w vblk is_read hdr.sector (vq.qsize + 2) vq it 0 [] with
    | (none, vq2, it2) => (none, vq2, it2)
    | (some (total, pst, vecs), vq2, it2) =>
      (some (virtio_blk_io.mk pst it.head
        (blk_io_request.mk (if is_read then VIRTIO_BLK_T_IN else VIRTIO_BLK_T_OUT)
          hdr.sector total vecs)), vq2, it2)

/-- Model of handle_blk_request.  The third component is the list of used-ring
    commits the handler performs, as pairs of head id and nwritten: the
    drop_request path publishes the chain head with zero bytes written via
    virtqueue_release_buffers, while the blk_rw failure path and the FLUSH path
    return NULL without publishing anything. -/
def handle_blk_request (w : World) (vblk : virtio_blk) (vq : virtqueue)
    (it : virtqueue_buffer_iter) :
    Option virtio_blk_io × virtqueue × List (Nat × Nat) :=
  match virtqueue_next_buffer w vq it with
  | (none, vq1, it1) => (none, vq1, [(it1.head, 0)])
  | (some buf, vq1, it1) =>
    if buf.len ≠ 16 then (none, vq1, [(it1.head, 0)])
    else
      let hdr := readBlkReq w buf.ptr
      if hdr.type = VIRTIO_BLK_T_IN ∨ hdr.type = VIRTIO_BLK_T_OUT then
        let r := blk_rw w vblk hdr vq1 it1
        (r.1, r.2.1, [])
      else if hdr.type = VIRTIO_BLK_T_FLUSH then (none, vq1, [])
      else (none, vq1, [(it1.head, 0)])

/-! ## Vhost-user per-vring control handlers (protocol translation unit) -/

structure vring_state_payload where
  index : Nat
  num : Nat
deriving DecidableEq, Repr

structure vhost_dev_model where
  num_queues : Nat
  vring_sizes : Nat → Nat

/-- Faithful model of the set_vring_num handler: reject a short payload, reject
    a ring index strictly greater than num_queues (the C comparison), reject an
    oversized ring, and otherwise store the size in the addressed vring slot,
    returning zero.  The vring slots are modelled as a total function so that
    the store the C performs at index num_queues is visible. -/
def set_vring_num (dev : vhost_dev_model) (hdr_size : Nat) (p : vring_state_payload) :
    Int × vhost_dev_model :=
  if hdr_size < 8 then (-1, dev)
  else if dev.num_queues < p.index % U32 then (-1, dev)
  else if VIRTQ_MAX_SIZE < p.num % U32 then (-1, dev)
  else (0, { dev with vring_sizes :=
    fun i => if i = p.index % U32 then p.num % U32 else dev.vring_sizes i })

/-- Model of the dispatch decision in handle_message: the device is reset (and
    the connection dropped) exactly when the handler result is negative. -/
def vhost_resets_on (res : Int) : Bool := decide (res < 0)

/-! ## Validity predicates for descriptor chains

These predicates express, over the embedded state, what the specification calls
a valid driver-built chain: indices inside the table and distinct from the
iterator sentinel, nonzero lengths, no indirection inside the chain, mapped
buffers, and next links that follow the listed order, with the final descriptor
carrying no next link. -/

def chain_desc_ok (w : World) (vq : virtqueue) (tbl : Nat) (i : Nat) : Bool :=
  let d := readDesc w tbl i
  decide (d.len ≠ 0) && !(hasFlag d.flags VIRTQ_DESC_F_INDIRECT) &&
    (map_buffer vq d).isSome

def chain_ok (w : World) (vq : virtqueue) (tbl tblSize : Nat) : List Nat → Bool
  | [] => true
  | [i] =>
    decide (i < tblSize) && decide (i ≠ VIRTQ_INVALID_DESC_ID) && chain_desc_ok w vq tbl i &&
      !(hasFlag (readDesc w tbl i).flags VIRTQ_DESC_F_NEXT)
  | i :: j :: rest =>
    decide (i < tblSize) && decide (i ≠ VIRTQ_INVALID_DESC_ID) && chain_desc_ok w vq tbl i &&
      hasFlag (readDesc w tbl i).flags VIRTQ_DESC_F_NEXT &&
      decide ((readDesc w tbl i).next = j) && chain_ok w vq tbl tblSize (j :: rest)

/-- The buffer the iterator is expected to yield for a chain descriptor. -/
def buffer_of (w : World) (vq : virtqueue) (tbl i : Nat) : virtqueue_buffer :=
  let d := readDesc w tbl i
  virtqueue_buffer.mk ((map_buffer vq d).getD 0) d.len
    (decide ((d.flags &&& VIRTQ_DESC_F_WRITE) = 0))

/-- A head descriptor that transfers the chain into an indirect table located
    at host address tbl: INDIRECT set, NEXT clear, a nonzero entry count, and
    the table mapped through the memory map. -/
def indirect_head_ok (w : World) (vq : virtqueue) (h tbl : Nat) : Bool :=
  let d0 := readDesc w vq.descTbl h
  hasFlag d0.flags VIRTQ_DESC_F_INDIRECT && !(hasFlag d0.flags VIRTQ_DESC_F_NEXT) &&
    decide (d0.len / 16 ≠ 0) && decide (map_buffer vq d0 = some tbl)

/-- The chain shapes named by the claims: a direct chain starting at the head
    id h in the descriptor table, or a one-level indirect chain whose head
    descriptor references the table at tbl and whose entries start at index 0. -/
def claim_chain (w : World) (vq : virtqueue) (h : Nat) (idxs : List Nat) (tbl : Nat) : Prop :=
  (tbl = vq.descTbl ∧ idxs.head? = some h ∧
    chain_ok w vq vq.descTbl vq.qsize idxs = true)
  ∨
  (h < vq.qsize ∧ h ≠ VIRTQ_INVALID_DESC_ID ∧ indirect_head_ok w vq h tbl = true ∧
    idxs.head? = some 0 ∧
    chain_ok w vq tbl ((readDesc w vq.descTbl h).len / 16) idxs = true)

/-- An endless chain of next links: from every position of the sequence the
    descriptor read there carries NEXT and links to the following position, and
    in the direct phase never carries INDIRECT.  A descriptor chain containing
    a cycle satisfies this: its link walk never reaches an end-of-chain
    descriptor. -/
def cyc_seq_claim (w : World) (tbl : Nat) (indirectPhase : Bool) (seq : Nat → Nat) : Prop :=
  ∀ n,
    (indirectPhase = false → hasFlag (readDesc w tbl (seq n)).flags VIRTQ_DESC_F_INDIRECT = false) ∧
    hasFlag (readDesc w tbl (seq n)).flags VIRTQ_DESC_F_NEXT = true ∧
    (readDesc w tbl (seq n)).next = seq (n + 1)

/-! ## Concrete fixtures used by the counterexamples and bug witnesses -/

/-- Association-style descriptor memory: the descriptor stored at each listed
    host address, all other addresses holding an all-zero record. -/
def descMapAt (l : List (Nat × virtq_desc)) : Nat → virtq_desc :=
  fun p => (((l.find? (fun x => x.1 == p)).map (fun x => x.2)).getD (virtq_desc.mk 0 0 0 0))

/-- One read-write region mapping guest range 0 .. 2^20 at host base 0. -/
def rw1M : List virtio_memory_region := [virtio_memory_region.mk 0 1048576 0 false]

def vblkC : virtio_blk := virtio_blk.mk 1024 4096 false false 64 0

/-- World for the unchecked-head fixture: every descriptor reads as all zero. -/
def w10c : World := World.mk (fun _ => virtq_desc.mk 0 0 0 0) (fun _ => virtio_blk_req.mk 0 0 0)

/-- A size-1 virtqueue whose avail ring publishes the out-of-range head id 1. -/
def vq10c : virtqueue := virtqueue.mk [] 0 1 1 (fun _ => 1) 0 false

/-- Chain hdr, data, status where the status buffer has length 2 instead of 1
    and the header holds a write request. -/
def w2c : World := World.mk
  (descMapAt [(0, virtq_desc.mk 4096 16 1 1), (16, virtq_desc.mk 8192 512 3 2),
    (32, virtq_desc.mk 12288 2 2 0)])
  (fun p => if p = 4096 then virtio_blk_req.mk 1 0 0 else virtio_blk_req.mk 0 0 0)

/-- Same chain, with an unknown request type 7 in the header. -/
def w2u : World := World.mk
  (descMapAt [(0, virtq_desc.mk 4096 16 1 1), (16, virtq_desc.mk 8192 512 3 2),
    (32, virtq_desc.mk 12288 2 2 0)])
  (fun p => if p = 4096 then virtio_blk_req.mk 7 0 0 else virtio_blk_req.mk 0 0 0)

def vq2c : virtqueue := virtqueue.mk rw1M 0 4 1 (fun _ => 0) 0 false

def it2c : virtqueue_buffer_iter := start_desc_chain vq2c 0

/-- Read request whose single data buffer is read-only (direction violation for
    BLK_T_IN) with a well-formed one-byte writable status buffer. -/
def w3in : World := World.mk
  (descMapAt [(0, virtq_desc.mk 4096 16 1 1), (16, virtq_desc.mk 8192 512 1 2),
    (32, virtq_desc.mk 12288 1 2 0)])
  (fun p => if p = 4096 then virtio_blk_req.mk 0 0 0 else virtio_blk_req.mk 3 0 0)

/-- The same chain as a write request: its read-only data buffer is exactly the
    direction virtio prescribes for BLK_T_OUT. -/
def w3out : World := World.mk
  (descMapAt [(0, virtq_desc.mk 4096 16 1 1), (16, virtq_desc.mk 8192 512 1 2),
    (32, virtq_desc.mk 12288 1 2 0)])
  (fun p => if p = 4096 then virtio_blk_req.mk 1 0 0 else virtio_blk_req.mk 3 0 0)

/-- A queue of size 2 whose single direct descriptor references an indirect
    table of exactly 2 valid entries: a driver-built chain of length qsize. -/
def w4c : World := World.mk
  (descMapAt [(0, virtq_desc.mk 8192 32 4 0), (8192, virtq_desc.mk 1024 512 1 1),
    (8208, virtq_desc.mk 2048 512 0 0)])
  (fun _ => virtio_blk_req.mk 0 0 0)

def vq4c : virtqueue := virtqueue.mk rw1M 0 2 1 (fun _ => 0) 0 false

/-- A queue of size 2 whose head descriptor references an indirect table of
    40000 entries containing the two-element cycle 0 to 32768 and back. -/
def w5c : World := World.mk
  (descMapAt [(0, virtq_desc.mk 8192 640000 4 0), (8192, virtq_desc.mk 1024 512 1 32768),
    (532480, virtq_desc.mk 2048 512 1 0)])
  (fun _ => virtio_blk_req.mk 0 0 0)

def vq5c : virtqueue := virtqueue.mk rw1M 0 2 1 (fun _ => 0) 0 false

def seqC5 (n : Nat) : Nat := if n % 2 = 0 then 0 else 32768

/-- A direct two-descriptor chain on a queue of size 4: entry 0 links to entry
    1, which ends the chain with a device-writable buffer. -/
def w4d : World := World.mk
  (descMapAt [(0, virtq_desc.mk 4096 512 1 1), (16, virtq_desc.mk 8192 512 2 0)])
  (fun _ => virtio_blk_req.mk 0 0 0)

/-- A queue of size 2 holding the two-descriptor direct cycle 0 to 1 and back. -/
def w5d : World := World.mk
  (descMapAt [(0, virtq_desc.mk 4096 512 1 1), (16, virtq_desc.mk 8192 512 1 0)])
  (fun _ => virtio_blk_req.mk 0 0 0)

def vq5d : virtqueue := virtqueue.mk rw1M 0 2 1 (fun _ => 0) 0 false

def seqC5d (n : Nat) : Nat := n % 2

/-! ## Claim C1 -/

/-- C1: the claim says virtqueue_enqueue_used writes the used-ring entry
    ring[used.idx masked] with id = head id and len = nwritten, leaves the
    flags and idx header fields untouched by the entry write, and then
    increments used.idx by one.  The code instead indexes vq.used itself as an
    array of 4-byte virtq_used records: on a fresh size-2 ring, publishing head
    5 with nwritten 7 overwrites the header bytes (flags becomes 5) and leaves
    every ring-entry byte zero, differing from the write the claim describes. -/
theorem c1_enqueue_used_miswrites_header :
    virtqueue_enqueue_used 2 (List.replicate 20 0) 5 7 =
      [5, 0, 1, 0, 0, 0, 0, 0, 0, 0, 0, 0, 0, 0, 0, 0, 0, 0, 0, 0] ∧
    enqueue_used_ring_claim 2 (List.replicate 20 0) 5 7 =
      [0, 0, 1, 0, 5, 0, 0, 0, 7, 0, 0, 0, 0, 0, 0, 0, 0, 0, 0, 0] ∧
    virtqueue_enqueue_used 2 (List.replicate 20 0) 5 7 ≠
      enqueue_used_ring_claim 2 (List.replicate 20 0) 5 7 := by decide

/-! ## Claim C2 -/

/-- C2: the claim says every virtio-blk validation failure drops the request in
    one uniform way, committing the chain to the used ring with zero bytes
    written.  On a write request whose status buffer has length 2 (a validation
    failure inside blk_rw) the handler returns no bio and performs no used-ring
    commit at all, while the same chain with an unknown request type is dropped
    through the drop_request path, which does commit the head with zero
    nwritten: the two failure classes are not dropped uniformly. -/
theorem c2_blk_rw_failure_commits_nothing :
    (handle_blk_request w2c vblkC vq2c it2c).1 = none ∧
    (handle_blk_request w2c vblkC vq2c it2c).2.2 = [] ∧
    (handle_blk_request w2u vblkC vq2c it2c).1 = none ∧
    (handle_blk_request w2u vblkC vq2c it2c).2.2 = [(0, 0)] := by decide

/-! ## Claim C3 -/

/-- C3: the claim says data buffers must be write-only for BLK_T_IN and
    read-only for BLK_T_OUT, and chains violating this produce no bio.  The
    code checks the opposite: a read request whose data buffer is read-only (a
    direction violation) is accepted and produces a bio, while the identical
    chain as a write request, whose read-only data buffer is exactly the
    direction the claim prescribes, is rejected. -/
theorem c3_direction_check_inverted :
    (handle_blk_request w3in vblkC vq2c it2c).1 =
      some (virtio_blk_io.mk 12288 0 (blk_io_request.mk 0 0 1 [virtio_iovec.mk 8192 512])) ∧
    (handle_blk_request w3out vblkC vq2c it2c).1 = none := by decide

/-! ## Claim C8 -/

/-- C8: the claim says any vring-addressed message whose ring index is at least
    num_queues is rejected and resets the device with no vring slot modified.
    For a device with one queue, SET_VRING_NUM with ring index 1 (equal to
    num_queues, hence out of range) returns 0: it is not rejected, the device
    is not reset, and the handler stores the size into slot 1, one past the
    allocated vring array, because the code compares with strictly-greater
    instead of greater-or-equal. -/
theorem c8_set_vring_num_accepts_equal_index :
    (set_vring_num (vhost_dev_model.mk 1 fun _ => 0) 8 (vring_state_payload.mk 1 128)).1 = 0 ∧
    vhost_resets_on
      (set_vring_num (vhost_dev_model.mk 1 fun _ => 0) 8 (vring_state_payload.mk 1 128)).1 = false ∧
    (set_vring_num (vhost_dev_model.mk 1 fun _ => 0) 8
      (vring_state_payload.mk 1 128)).2.vring_sizes 1 = 128 ∧
    ¬ ((1 : Nat) < 1) := by decide

/-! ## Claim C9 -/

/-- C9: the claim says a readonly device advertises the BLK_F_RO feature bit,
    bit 5.  Initialising a readonly device yields supported_features 69, which
    is bit 6 (BLK_SIZE) or-ed with the raw constant 5 (bits 0 and 2): bit 5 is
    not set, because the code ors in the bit number instead of one shifted left
    by the bit number (compare the writeback branch, which shifts correctly). -/
theorem c9_readonly_feature_bit_wrong :
    virtio_blk_init (virtio_blk.mk 1024 4096 true false 0 0) =
      .ok (virtio_blk.mk 1024 4096 true false 69 0) ∧
    69 &&& (1 <<< VIRTIO_BLK_F_RO) = 0 ∧
    69 &&& (1 <<< VIRTIO_BLK_F_BLK_SIZE) ≠ 0 :=
  ⟨rfl, by decide, by decide⟩

/-! ## Claim C10 -/

/-- C10: the claim says every descriptor-table access during iteration,
    including the initial access at the guest-supplied head id, uses an index
    strictly below the table size.  On a size-1 queue whose avail ring
    publishes head id 1, the first next_buffer call reads table index 1 of a
    table of size 1: the head id is never validated, so the initial read is out
    of bounds. -/
theorem c10_head_id_unchecked :
    (virtqueue_dequeue_avail vq10c).map
      (fun s => (s.2.cur, s.2.tbl_size, next_buffer_desc_reads w10c s.1 s.2)) =
      some (1, 1, [(1, 1)]) ∧
    ¬ ((1 : Nat) < 1) := by decide

/-! ## Claim C4, counterexample -/

/-- C4 counterexample: the claim admits chains of length k up to qsize with one
    level of indirection.  Here qsize is 2 and the chain is a valid driver
    chain of 2 indirect entries (nonzero lengths, in-bounds links, mapped
    addresses), yet iteration yields only one buffer and breaks the queue,
    because the iterator also counts the indirect transition against the qsize
    budget. -/
theorem c4_counterexample_indirect_chain_of_qsize :
    claim_chain w4c vq4c 0 [0, 1] 8192 ∧
    [0, 1].length ≤ vq4c.qsize ∧
    (virtqueue_dequeue_avail vq4c).map
      (fun s => ((runIter w4c 2 s.1 s.2).1, (runIter w4c 2 s.1 s.2).2.1.is_broken)) =
      some ([virtqueue_buffer.mk 1024 512 true], true) := by
  refine ⟨Or.inr (by decide), by decide, by decide⟩

/-! ## Claim C5, counterexample -/

/-- C5 counterexample: the claim says that for every chain containing a cycle,
    next_buffer returns none within qsize + 1 calls with the queue broken at
    that point.  Here the indirect table has 40000 entries and the cycle
    alternates between entries 0 and 32768.  Index 32768 equals the iterator
    sentinel VIRTQ_INVALID_DESC_ID, so after yielding entry 0 the iterator
    treats the chain as cleanly finished: the second call returns none but the
    queue is never marked broken, within the claimed window of qsize + 1 = 3
    calls. -/
theorem c5_counterexample_sentinel_cycle :
    indirect_head_ok w5c vq5c 0 8192 = true ∧
    seqC5 0 = 0 ∧
    cyc_seq_claim w5c 8192 true seqC5 ∧
    (virtqueue_dequeue_avail vq5c).map
      (fun s => (callResult w5c 1 s, (iterState w5c 1 s).1.is_broken,
        (iterState w5c 2 s).1.is_broken, (iterState w5c 3 s).1.is_broken)) =
      some (none, false, false, false) := by
  refine ⟨by decide, rfl, ?_, by decide⟩
  intro n
  rcases Nat.mod_two_eq_zero_or_one n with h | h
  · have h2 : (n + 1) % 2 = 1 := by omega
    simp only [seqC5, h, h2]
    decide
  · have h2 : (n + 1) % 2 = 0 := by omega
    simp only [seqC5, h, h2]
    decide

/-! ## Claim C6: infrastructure -/

/-- A region as the C control plane actually installs them: nonzero size and a
    non-wrapping guest range. -/
def region_wf (r : virtio_memory_region) : Prop :=
  1 ≤ r.len ∧ r.len < U64 ∧ r.gpa + r.len ≤ U64

instance region_wf_dec : DecidablePred region_wf := fun r =>
  decidable_of_iff (1 ≤ r.len ∧ r.len < U64 ∧ r.gpa + r.len ≤ U64) Iff.rfl

/-- The data-model invariant of the memory map: consecutive regions are ordered
    with no overlap. -/
def mem_sorted : List virtio_memory_region → Prop
  | [] => True
  | [_] => True
  | a :: b :: rest => a.gpa + a.len ≤ b.gpa ∧ mem_sorted (b :: rest)

instance mem_sorted_dec : (rs : List virtio_memory_region) → Decidable (mem_sorted rs)
  | [] => .isTrue trivial
  | [_] => .isTrue trivial
  | a :: b :: rest =>
    have : Decidable (mem_sorted (b :: rest)) := mem_sorted_dec (b :: rest)
    decidable_of_iff (a.gpa + a.len ≤ b.gpa ∧ mem_sorted (b :: rest)) Iff.rfl

theorem mem_sorted_tail {a : virtio_memory_region} {rest : List virtio_memory_region}
    (h : mem_sorted (a :: rest)) : mem_sorted rest := by
  cases rest with
  | nil => trivial
  | cons b t => exact h.2

/-- The range gpa .. gpa + len is covered by the regions at the front of the
    list: each byte lies in one of them, consecutive regions used are exactly
    adjacent, and every region used has its ro flag at most the requested one. -/
def covers_from : List virtio_memory_region → Nat → Nat → Bool → Prop
  | [], _, _, _ => False
  | mr :: rest, gpa, len, ro =>
    (mr.ro = true → ro = true) ∧ mr.gpa ≤ gpa ∧ gpa < mr.gpa + mr.len ∧
      (gpa + len ≤ mr.gpa + mr.len ∨
        ((∃ next tail2, rest = next :: tail2 ∧ next.gpa = mr.gpa + mr.len) ∧
          covers_from rest (mr.gpa + mr.len) (len - (mr.gpa + mr.len - gpa)) ro))

/-- The host address of a single guest byte: the first region of the list that
    contains it, offset accordingly.  This renders the claim phrase the host
    address of the first byte of the range. -/
def host_addr_of (rs : List virtio_memory_region) (gpa : Nat) : Option Nat :=
  match rs with
  | [] => none
  | r :: rest =>
    if r.gpa ≤ gpa ∧ gpa < r.gpa + r.len then some (r.hva + (gpa - r.gpa))
    else host_addr_of rest gpa

theorem sub64_small {a b : Nat} (hba : b ≤ a) (ha : a < U64) : sub64 a b = a - b := by
  unfold sub64
  rw [Nat.mod_eq_of_lt (lt_of_le_of_lt hba ha)]
  have h1 : a + U64 - b = U64 + (a - b) := by omega
  rw [h1, Nat.add_mod_left, Nat.mod_eq_of_lt (by omega)]

theorem region_contains_iff {r : virtio_memory_region} (hr : region_wf r) (gpa : Nat) :
    region_contains_gpa r gpa = true ↔ (r.gpa ≤ gpa ∧ gpa < r.gpa + r.len) := by
  obtain ⟨h1, h2, h3⟩ := hr
  have hm : (r.gpa + r.len + (U64 - 1)) % U64 = r.gpa + r.len - 1 := by
    have e : r.gpa + r.len + (U64 - 1) = U64 + (r.gpa + r.len - 1) := by omega
    rw [e, Nat.add_mod_left, Nat.mod_eq_of_lt (by omega)]
  simp only [region_contains_gpa, hm, Bool.and_eq_true, decide_eq_true_eq]
  omega

theorem find_region_suffix_some {rs : List virtio_memory_region} {gpa : Nat}
    {mr : virtio_memory_region} {rest : List virtio_memory_region}
    (hwf : ∀ r ∈ rs, region_wf r)
    (h : find_region_suffix rs gpa = some (mr, rest)) :
    (mr.gpa ≤ gpa ∧ gpa < mr.gpa + mr.len) ∧ ∃ i, rs.drop i = mr :: rest := by
  induction rs with
  | nil => simp [find_region_suffix] at h
  | cons a t ih =>
    rw [find_region_suffix] at h
    by_cases hc : region_contains_gpa a gpa = true
    · rw [if_pos hc] at h
      obtain ⟨rfl, rfl⟩ : a = mr ∧ t = rest := by
        constructor <;> { injection h with h2; cases h2; rfl }
      exact ⟨(region_contains_iff (hwf a (by simp)) gpa).mp hc, 0, rfl⟩
    · rw [if_neg hc] at h
      obtain ⟨hin, i, hdrop⟩ := ih (fun r hr => hwf r (by simp [hr])) h
      exact ⟨hin, i + 1, hdrop⟩

theorem find_region_suffix_none {rs : List virtio_memory_region} {gpa : Nat}
    (hwf : ∀ r ∈ rs, region_wf r)
    (h : find_region_suffix rs gpa = none) :
    ∀ r ∈ rs, ¬ (r.gpa ≤ gpa ∧ gpa < r.gpa + r.len) := by
  induction rs with
  | nil => simp
  | cons a t ih =>
    rw [find_region_suffix] at h
    by_cases hc : region_contains_gpa a gpa = true
    · rw [if_pos hc] at h; exact absurd h (by simp)
    · rw [if_neg hc] at h
      intro r hr
      rcases List.mem_cons.mp hr with rfl | hrt
      · exact fun hin => hc ((region_contains_iff (hwf r (by simp)) gpa).mpr hin)
      · exact ih (fun x hx => hwf x (by simp [hx])) h r hrt

theorem host_addr_of_eq_suffix {rs : List virtio_memory_region} {gpa : Nat}
    (hwf : ∀ r ∈ rs, region_wf r) :
    host_addr_of rs gpa =
      (find_region_suffix rs gpa).map (fun x => x.1.hva + (gpa - x.1.gpa)) := by
  induction rs with
  | nil => rfl
  | cons a t ih =>
    rw [host_addr_of, find_region_suffix]
    by_cases hc : region_contains_gpa a gpa = true
    · rw [if_pos hc, if_pos ((region_contains_iff (hwf a (by simp)) gpa).mp hc)]
      rfl
    · rw [if_neg hc, if_neg (fun hin => hc ((region_contains_iff (hwf a (by simp)) gpa).mpr hin))]
      exact ih (fun x hx => hwf x (by simp [hx]))

theorem mem_sorted_drop (rs : List virtio_memory_region) (i : Nat)
    (h : mem_sorted rs) : mem_sorted (rs.drop i) := by
  induction i generalizing rs with
  | zero => exact h
  | succ n ih =>
    cases rs with
    | nil => trivial
    | cons a t => exact ih t (mem_sorted_tail h)

theorem find_gpa_loop_covers (rest : List virtio_memory_region) :
    ∀ (gpa len : Nat) (ro : Bool) (mr : virtio_memory_region),
      (∀ r ∈ mr :: rest, region_wf r) → mem_sorted (mr :: rest) →
      mr.gpa ≤ gpa → gpa < mr.gpa + mr.len →
      1 ≤ len → gpa < U64 →
      find_gpa_loop gpa len ro (mr :: rest) = 0 →
      covers_from (mr :: rest) gpa len ro := by
  induction rest with
  | nil =>
    intro gpa len ro mr hwf hsort hlo hhi hlen hgpa hloop
    have hwfa : region_wf mr := hwf mr (by simp)
    simp only [find_gpa_loop] at hloop
    by_cases hro : (!ro && mr.ro) = true
    · rw [if_pos hro] at hloop; omega
    · rw [if_neg hro] at hloop
      have roFact : mr.ro = true → ro = true := by
        intro hm
        cases ro
        · exact absurd (by simp [hm]) hro
        · rfl
      have hsub1 : sub64 gpa mr.gpa = gpa - mr.gpa := sub64_small hlo hgpa
      have hsub2 : sub64 mr.len (gpa - mr.gpa) = mr.len - (gpa - mr.gpa) :=
        sub64_small (by omega) hwfa.2.1
      rw [hsub1, hsub2] at hloop
      by_cases hc : len ≤ mr.len - (gpa - mr.gpa)
      · exact ⟨roFact, hlo, hhi, Or.inl (by omega)⟩
      · have hmin : min len (mr.len - (gpa - mr.gpa)) = mr.len - (gpa - mr.gpa) :=
          min_eq_right (by omega)
        rw [hmin] at hloop
        have hlen2 : ¬ (len - (mr.len - (gpa - mr.gpa)) = 0) := by omega
        rw [if_neg hlen2] at hloop
        exact absurd hloop hlen2
  | cons next t2 ih =>
    intro gpa len ro mr hwf hsort hlo hhi hlen hgpa hloop
    have hwfa : region_wf mr := hwf mr (by simp)
    simp only [find_gpa_loop] at hloop
    by_cases hro : (!ro && mr.ro) = true
    · rw [if_pos hro] at hloop; omega
    · rw [if_neg hro] at hloop
      have roFact : mr.ro = true → ro = true := by
        intro hm
        cases ro
        · exact absurd (by simp [hm]) hro
        · rfl
      have hsub1 : sub64 gpa mr.gpa = gpa - mr.gpa := sub64_small hlo hgpa
      have hsub2 : sub64 mr.len (gpa - mr.gpa) = mr.len - (gpa - mr.gpa) :=
        sub64_small (by omega) hwfa.2.1
      rw [hsub1, hsub2] at hloop
      by_cases hc : len ≤ mr.len - (gpa - mr.gpa)
      · exact ⟨roFact, hlo, hhi, Or.inl (by omega)⟩
      · have hmin : min len (mr.len - (gpa - mr.gpa)) = mr.len - (gpa - mr.gpa) :=
          min_eq_right (by omega)
        rw [hmin] at hloop
        have hlen2 : ¬ (len - (mr.len - (gpa - mr.gpa)) = 0) := by omega
        rw [if_neg hlen2] at hloop
        by_cases hadj : next.gpa ≠ (mr.gpa + mr.len) % U64
        · rw [if_pos hadj] at hloop
          exact absurd hloop hlen2
        · rw [if_neg hadj] at hloop
          have hwfn : region_wf next := hwf next (by simp)
          have hend : mr.gpa + mr.len ≤ next.gpa := hsort.1
          have hnextlt : next.gpa < U64 := by
            obtain ⟨n1, n2, n3⟩ := hwfn; omega
          have hendlt : mr.gpa + mr.len < U64 := lt_of_le_of_lt hend hnextlt
          have hadj2 : next.gpa = mr.gpa + mr.len := by
            rw [not_ne_iff.mp hadj, Nat.mod_eq_of_lt hendlt]
          have hgpa2 : (gpa + (mr.len - (gpa - mr.gpa))) % U64 = mr.gpa + mr.len := by
            have e : gpa + (mr.len - (gpa - mr.gpa)) = mr.gpa + mr.len := by omega
            rw [e, Nat.mod_eq_of_lt hendlt]
          rw [hgpa2] at hloop
          have hcov := ih (mr.gpa + mr.len) (len - (mr.len - (gpa - mr.gpa))) ro next
            (fun r hr => hwf r (by simp at hr; simp [hr])) (mem_sorted_tail hsort)
            (le_of_eq hadj2) (by obtain ⟨n1, n2, n3⟩ := hwfn; omega)
            (by omega) hendlt hloop
          refine ⟨roFact, hlo, hhi, Or.inr ⟨⟨next, t2, rfl, hadj2⟩, ?_⟩⟩
          have e2 : mr.gpa + mr.len - gpa = mr.len - (gpa - mr.gpa) := by omega
          rw [e2]
          exact hcov

/-! ## Claim C6 -/

/-- C6 (amended): for a memory map whose regions satisfy the data-model
    invariant (ordered, non-overlapping) and are well formed (nonzero length,
    no u64 wrap of base + length), virtio_find_gpa_range is correct: a
    successful lookup implies the whole range is covered by contiguous,
    exactly-adjacent regions whose ro flags are at most the requested one, and
    the returned pointer is the host address of the first byte of the range;
    and the lookup fails when len is zero, when gpa lies in no region, and
    whenever no adjacent covering run exists (a gap, or a read-only region met
    while write access was requested).  The amendment restricts the map to
    nonzero-length, non-wrapping regions: the unrestricted claim is refuted by
    c6_counterexample_zero_length_region. -/
theorem c6_find_gpa_range_correct (mem : List virtio_memory_region) (gpa len : Nat)
    (ro : Bool)
    (hwf : ∀ r ∈ mem, region_wf r) (hsort : mem_sorted mem) (hgpa : gpa < U64) :
    (∀ p, virtio_find_gpa_range mem gpa len ro = some p →
      (∃ i, covers_from (List.drop i mem) gpa len ro) ∧ host_addr_of mem gpa = some p) ∧
    (len = 0 → virtio_find_gpa_range mem gpa len ro = none) ∧
    ((∀ r ∈ mem, ¬ (r.gpa ≤ gpa ∧ gpa < r.gpa + r.len)) →
      virtio_find_gpa_range mem gpa len ro = none) ∧
    ((¬ ∃ i, covers_from (List.drop i mem) gpa len ro) →
      virtio_find_gpa_range mem gpa len ro = none) := by
  have h1 : ∀ p, virtio_find_gpa_range mem gpa len ro = some p →
      (∃ i, covers_from (List.drop i mem) gpa len ro) ∧ host_addr_of mem gpa = some p := by
    intro p hp
    unfold virtio_find_gpa_range at hp
    by_cases hl : len = 0
    · rw [if_pos hl] at hp; cases hp
    · rw [if_neg hl] at hp
      cases hfr : find_region_suffix mem gpa with
      | none => rw [hfr] at hp; cases hp
      | some x =>
        obtain ⟨mr, rest⟩ := x
        rw [hfr] at hp
        dsimp only at hp
        by_cases hloop : find_gpa_loop gpa len ro (mr :: rest) = 0
        · rw [if_pos hloop] at hp
          obtain ⟨hin, i, hdrop⟩ := find_region_suffix_some hwf hfr
          have hwfd : ∀ r ∈ mr :: rest, region_wf r := by
            intro r hr
            exact hwf r (List.drop_subset i mem (hdrop ▸ hr))
          have hsortd : mem_sorted (mr :: rest) := hdrop ▸ mem_sorted_drop mem i hsort
          have hcov := find_gpa_loop_covers rest gpa len ro mr hwfd hsortd
            hin.1 hin.2 (by omega) hgpa hloop
          constructor
          · exact ⟨i, hdrop ▸ hcov⟩
          · rw [host_addr_of_eq_suffix hwf, hfr]
            have : p = mr.hva + sub64 gpa mr.gpa := by
              injection hp with h; exact h.symm
            rw [this, sub64_small hin.1 hgpa]
            rfl
        · rw [if_neg hloop] at hp; cases hp
  refine ⟨h1, ?_, ?_, ?_⟩
  · intro hl
    unfold virtio_find_gpa_range
    rw [if_pos hl]
  · intro hnone
    unfold virtio_find_gpa_range
    by_cases hl : len = 0
    · rw [if_pos hl]
    · rw [if_neg hl]
      cases hfr : find_region_suffix mem gpa with
      | none => rfl
      | some x =>
        obtain ⟨mr, rest⟩ := x
        obtain ⟨hin, i, hdrop⟩ := find_region_suffix_some hwf hfr
        have hmem : mr ∈ mem := List.drop_subset i mem (hdrop ▸ List.mem_cons_self mr rest)
        exact absurd hin (hnone mr hmem)
  · intro hnc
    cases h : virtio_find_gpa_range mem gpa len ro with
    | none => rfl
    | some p => exact absurd (h1 p h).1 hnc

/-- C6 counterexample: the claim quantifies over every memory map and asserts
    find_range fails whenever gpa lies in no region.  A map holding the single
    zero-length region at gpa 0 is sorted and non-overlapping, yet the lookup
    of 10 bytes at gpa 5 succeeds (the code computes base + len - 1 in u64,
    which wraps to 2^64 - 1 for a zero-length region), although gpa 5 lies in
    no region of the map. -/
theorem c6_counterexample_zero_length_region :
    virtio_find_gpa_range [virtio_memory_region.mk 0 0 42 false] 5 10 true = some 47 ∧
    (∀ r ∈ [virtio_memory_region.mk 0 0 42 false], ¬ (r.gpa ≤ 5 ∧ 5 < r.gpa + r.len)) := by
  constructor
  · decide
  · intro r hr
    simp only [List.mem_singleton] at hr
    subst hr
    decide

/-- Witness for the amended C6 theorem: a sorted two-region map in which a
    read-only lookup spanning both regions succeeds and is therefore covered by
    an adjacent run. -/
theorem c6_witness :
    virtio_find_gpa_range
      [virtio_memory_region.mk 4096 4096 500 false, virtio_memory_region.mk 8192 4096 900 true]
      6144 4096 true = some 2548 ∧
    (∃ i, covers_from
      (List.drop i [virtio_memory_region.mk 4096 4096 500 false,
        virtio_memory_region.mk 8192 4096 900 true]) 6144 4096 true) ∧
    host_addr_of
      [virtio_memory_region.mk 4096 4096 500 false, virtio_memory_region.mk 8192 4096 900 true]
      6144 = some 2548 := by
  have hs : virtio_find_gpa_range
      [virtio_memory_region.mk 4096 4096 500 false, virtio_memory_region.mk 8192 4096 900 true]
      6144 4096 true = some 2548 := by decide
  have h := (c6_find_gpa_range_correct
    [virtio_memory_region.mk 4096 4096 500 false, virtio_memory_region.mk 8192 4096 900 true]
    6144 4096 true (by decide) (by decide) (by decide)).1 2548 hs
  exact ⟨hs, h.1, h.2⟩

/-! ## Claim C7: infrastructure -/

/-- Interval intersection of two guest ranges, in plain natural arithmetic. -/
def ranges_intersect (a b : virtio_memory_region) : Prop :=
  a.gpa < b.gpa + b.len ∧ b.gpa < a.gpa + a.len

instance ranges_intersect_dec (a b : virtio_memory_region) : Decidable (ranges_intersect a b) :=
  decidable_of_iff (a.gpa < b.gpa + b.len ∧ b.gpa < a.gpa + a.len) Iff.rfl

theorem region_end_mod {r : virtio_memory_region} (hr : region_wf r) :
    (r.gpa + r.len + (U64 - 1)) % U64 = r.gpa + r.len - 1 := by
  obtain ⟨h1, h2, h3⟩ := hr
  have e : r.gpa + r.len + (U64 - 1) = U64 + (r.gpa + r.len - 1) := by omega
  rw [e, Nat.add_mod_left, Nat.mod_eq_of_lt (by omega)]

theorem are_overlapping_iff {r1 r2 : virtio_memory_region}
    (h1 : region_wf r1) (h2 : region_wf r2) :
    are_overlapping_regions r1 r2 = true ↔ ranges_intersect r1 r2 := by
  obtain ⟨a1, a2, a3⟩ := h1
  obtain ⟨b1, b2, b3⟩ := h2
  unfold are_overlapping_regions ranges_intersect
  by_cases hgt : r2.gpa < r1.gpa
  · rw [if_pos hgt, if_pos hgt]
    simp only [region_end_mod ⟨b1, b2, b3⟩, decide_eq_true_eq]
    omega
  · rw [if_neg hgt, if_neg hgt]
    simp only [region_end_mod ⟨a1, a2, a3⟩, decide_eq_true_eq]
    omega

theorem mem_sorted_head_le {b : virtio_memory_region} {t : List virtio_memory_region}
    (h : mem_sorted (b :: t)) : ∀ x ∈ t, b.gpa + b.len ≤ x.gpa := by
  induction t generalizing b with
  | nil => simp
  | cons c t2 ih =>
    intro x hx
    rcases List.mem_cons.mp hx with rfl | hxt
    · exact h.1
    · have hc := ih (mem_sorted_tail h) x hxt
      have := h.1
      omega

theorem mem_sorted_pairwise {rs : List virtio_memory_region}
    (hs : mem_sorted rs) (hwf : ∀ r ∈ rs, region_wf r) :
    List.Pairwise (fun a b => a.gpa < b.gpa ∧ a.gpa + a.len ≤ b.gpa) rs := by
  induction rs with
  | nil => exact List.Pairwise.nil
  | cons a t ih =>
    refine List.Pairwise.cons ?_ (ih (mem_sorted_tail hs) (fun r hr => hwf r (by simp [hr])))
    intro x hx
    have hle := mem_sorted_head_le hs x hx
    obtain ⟨h1, h2, h3⟩ := hwf a (by simp)
    exact ⟨by omega, hle⟩

/-- Success case of the recursive insertion: sortedness and well-formedness are
    preserved, and every element of the output sits at or after the end of the
    carried previous region. -/
theorem insert_region_sorted (rs : List virtio_memory_region) :
    ∀ (prev : Option virtio_memory_region) (c : virtio_memory_region)
      (out : List virtio_memory_region),
      (∀ r ∈ rs, region_wf r) → mem_sorted rs → region_wf c →
      (∀ p, prev = some p → region_wf p ∧ p.gpa ≤ c.gpa ∧
        ∀ r ∈ rs, p.gpa + p.len ≤ r.gpa) →
      insert_region prev rs c = .ok out →
      mem_sorted out ∧ (∀ x ∈ out, region_wf x) ∧
      (∀ p, prev = some p → ∀ x ∈ out, p.gpa + p.len ≤ x.gpa) := by
  induction rs with
  | nil =>
    intro prev c out hwf hsort hcwf hprev hok
    unfold insert_region at hok
    by_cases hov : overlaps_prev prev c = true
    · rw [if_pos hov] at hok; cases hok
    · rw [if_neg hov] at hok
      obtain rfl : [c] = out := by injection hok
      refine ⟨trivial, by simp [hcwf], ?_⟩
      intro p hp x hx
      obtain ⟨hpw, hple, _⟩ := hprev p hp
      simp only [List.mem_singleton] at hx
      subst hx
      have hno : ¬ ranges_intersect p x := by
        intro hint
        exact hov (by
          simp only [overlaps_prev, hp]
          exact (are_overlapping_iff hpw hcwf).mpr hint)
      unfold ranges_intersect at hno
      obtain ⟨c1, c2, c3⟩ := hcwf
      obtain ⟨p1, p2, p3⟩ := hpw
      omega
  | cons r t ih =>
    intro prev c out hwf hsort hcwf hprev hok
    have hrwf : region_wf r := hwf r (by simp)
    unfold insert_region at hok
    by_cases hgc : c.gpa < r.gpa
    · rw [if_pos hgc] at hok
      by_cases hov : (are_overlapping_regions r c || overlaps_prev prev c) = true
      · rw [if_pos hov] at hok; cases hok
      · rw [if_neg hov] at hok
        obtain rfl : c :: r :: t = out := by injection hok
        have hnrc : ¬ ranges_intersect r c := by
          intro hint
          apply hov
          rw [Bool.or_eq_true]
          exact Or.inl ((are_overlapping_iff hrwf hcwf).mpr hint)
        have hcr : c.gpa + c.len ≤ r.gpa := by
          unfold ranges_intersect at hnrc
          obtain ⟨c1, c2, c3⟩ := hcwf
          obtain ⟨r1, r2, r3⟩ := hrwf
          omega
        refine ⟨⟨hcr, hsort⟩, ?_, ?_⟩
        · intro x hx
          rcases List.mem_cons.mp hx with rfl | hxt
          · exact hcwf
          · exact hwf x hxt
        · intro p hp x hx
          obtain ⟨hpw, hple, hpall⟩ := hprev p hp
          rcases List.mem_cons.mp hx with rfl | hxt
          · have hno : ¬ ranges_intersect p x := by
              intro hint
              apply hov
              rw [Bool.or_eq_true]
              refine Or.inr ?_
              simp only [overlaps_prev, hp]
              exact (are_overlapping_iff hpw hcwf).mpr hint
            unfold ranges_intersect at hno
            obtain ⟨c1, c2, c3⟩ := hcwf
            obtain ⟨p1, p2, p3⟩ := hpw
            omega
          · exact hpall x hxt
    · rw [if_neg hgc] at hok
      cases hrec : insert_region (some r) t c with
      | error e => rw [hrec] at hok; cases hok
      | ok rest2 =>
        rw [hrec] at hok
        obtain rfl : r :: rest2 = out := by injection hok
        have hprev2 : ∀ p, some r = some p → region_wf p ∧ p.gpa ≤ c.gpa ∧
            ∀ x ∈ t, p.gpa + p.len ≤ x.gpa := by
          intro p hp
          obtain rfl : r = p := by injection hp
          exact ⟨hrwf, by omega, mem_sorted_head_le hsort⟩
        obtain ⟨hs2, hw2, hb2⟩ := ih (some r) c rest2
          (fun x hx => hwf x (by simp [hx])) (mem_sorted_tail hsort) hcwf hprev2 hrec
        have hrall : ∀ x ∈ rest2, r.gpa + r.len ≤ x.gpa := hb2 r rfl
        refine ⟨?_, ?_, ?_⟩
        · cases rest2 with
          | nil => trivial
          | cons y ys => exact ⟨hrall y (by simp), hs2⟩
        · intro x hx
          rcases List.mem_cons.mp hx with rfl | hxt
          · exact hrwf
          · exact hw2 x hxt
        · intro p hp x hx
          obtain ⟨hpw, hple, hpall⟩ := hprev p hp
          rcases List.mem_cons.mp hx with rfl | hxt
          · exact hpall x (by simp)
          · have h1 := hpall r (by simp)
            have h2 := hrall x hxt
            omega

/-- Rejection case of the recursive insertion: when the new region intersects
    the carried previous region or any region of the list, insertion fails with
    EINVAL (and therefore the C map is left unchanged). -/
theorem insert_region_rejects (rs : List virtio_memory_region) :
    ∀ (prev : Option virtio_memory_region) (c : virtio_memory_region),
      (∀ r ∈ rs, region_wf r) → mem_sorted rs → region_wf c →
      (∀ p, prev = some p → region_wf p ∧ p.gpa ≤ c.gpa ∧
        ∀ r ∈ rs, p.gpa + p.len ≤ r.gpa) →
      ((∃ p, prev = some p ∧ ranges_intersect p c) ∨ (∃ x ∈ rs, ranges_intersect x c)) →
      insert_region prev rs c = .error (-22) := by
  induction rs with
  | nil =>
    intro prev c hwf hsort hcwf hprev hint
    rcases hint with ⟨p, hp, hpint⟩ | ⟨x, hx, _⟩
    · obtain ⟨hpw, _, _⟩ := hprev p hp
      unfold insert_region
      rw [if_pos (by
        simp only [overlaps_prev, hp]
        exact (are_overlapping_iff hpw hcwf).mpr hpint)]
    · cases hx
  | cons r t ih =>
    intro prev c hwf hsort hcwf hprev hint
    have hrwf : region_wf r := hwf r (by simp)
    unfold insert_region
    by_cases hgc : c.gpa < r.gpa
    · rw [if_pos hgc]
      have hcond : (are_overlapping_regions r c || overlaps_prev prev c) = true := by
        rw [Bool.or_eq_true]
        rcases hint with ⟨p, hp, hpint⟩ | ⟨x, hx, hxint⟩
        · refine Or.inr ?_
          obtain ⟨hpw, _, _⟩ := hprev p hp
          simp only [overlaps_prev, hp]
          exact (are_overlapping_iff hpw hcwf).mpr hpint
        · refine Or.inl ?_
          rcases List.mem_cons.mp hx with rfl | hxt
          · exact (are_overlapping_iff hrwf hcwf).mpr hxint
          · have hle := mem_sorted_head_le hsort x hxt
            have hxwf : region_wf x := hwf x (by simp [hxt])
            refine (are_overlapping_iff hrwf hcwf).mpr ?_
            unfold ranges_intersect at hxint ⊢
            obtain ⟨r1, r2, r3⟩ := hrwf
            obtain ⟨x1, x2, x3⟩ := hxwf
            omega
      rw [if_pos hcond]
    · rw [if_neg hgc]
      have hprev2 : ∀ p, some r = some p → region_wf p ∧ p.gpa ≤ c.gpa ∧
          ∀ x ∈ t, p.gpa + p.len ≤ x.gpa := by
        intro p hp
        obtain rfl : r = p := by injection hp
        exact ⟨hrwf, by omega, mem_sorted_head_le hsort⟩
      have hint2 : (∃ p, (some r : Option virtio_memory_region) = some p ∧
          ranges_intersect p c) ∨ ∃ x ∈ t, ranges_intersect x c := by
        rcases hint with ⟨p, hp, hpint⟩ | ⟨x, hx, hxint⟩
        · obtain ⟨hpw, hple, hpall⟩ := hprev p hp
          have h1 := hpall r (by simp)
          unfold ranges_intersect at hpint
          obtain ⟨p1, p2, p3⟩ := hpw
          omega
        · rcases List.mem_cons.mp hx with rfl | hxt
          · exact Or.inl ⟨x, rfl, hxint⟩
          · exact Or.inr ⟨x, hxt, hxint⟩
      rw [ih (some r) c (fun x hx => hwf x (by simp [hx])) (mem_sorted_tail hsort)
        hcwf hprev2 hint2]

/-! ## Claim C7 -/

structure add_call where
  gpa : Nat
  len : Nat
  hva : Nat
  ro : Bool
deriving DecidableEq, Repr

/-- A sequence of virtio_add_guest_region calls, stopping at the first
    rejection. -/
def apply_adds : List add_call → List virtio_memory_region →
    Except Int (List virtio_memory_region)
  | [], m => .ok m
  | c :: cs, m =>
    match virtio_add_guest_region m c.gpa c.len c.hva c.ro with
    | .ok m2 => apply_adds cs m2
    | .error e => .error e

def call_wf (c : add_call) : Prop := region_wf (virtio_memory_region.mk c.gpa c.len c.hva c.ro)

instance call_wf_dec : DecidablePred call_wf := fun c =>
  decidable_of_iff (region_wf (virtio_memory_region.mk c.gpa c.len c.hva c.ro)) Iff.rfl

theorem virtio_add_guest_region_ok {m out : List virtio_memory_region}
    {gpa len hva : Nat} {ro : Bool}
    (hwf : ∀ r ∈ m, region_wf r) (hsort : mem_sorted m)
    (hcwf : region_wf (virtio_memory_region.mk gpa len hva ro))
    (hok : virtio_add_guest_region m gpa len hva ro = .ok out) :
    mem_sorted out ∧ ∀ x ∈ out, region_wf x := by
  unfold virtio_add_guest_region at hok
  by_cases hfull : m.length = VIRTIO_MEMORY_MAX_REGIONS
  · rw [if_pos hfull] at hok; cases hok
  · rw [if_neg hfull] at hok
    obtain ⟨hs, hw, _⟩ := insert_region_sorted m none (virtio_memory_region.mk gpa len hva ro)
      out hwf hsort hcwf (by intro p hp; cases hp) hok
    exact ⟨hs, hw⟩

theorem apply_adds_inv (calls : List add_call) :
    ∀ m0 m, (∀ c ∈ calls, call_wf c) →
      (∀ r ∈ m0, region_wf r) → mem_sorted m0 →
      apply_adds calls m0 = .ok m →
      mem_sorted m ∧ ∀ x ∈ m, region_wf x := by
  induction calls with
  | nil =>
    intro m0 m _ hwf hsort hok
    obtain rfl : m0 = m := by injection hok
    exact ⟨hsort, hwf⟩
  | cons c cs ih =>
    intro m0 m hc hwf hsort hok
    unfold apply_adds at hok
    cases hadd : virtio_add_guest_region m0 c.gpa c.len c.hva c.ro with
    | error e => rw [hadd] at hok; cases hok
    | ok m2 =>
      rw [hadd] at hok
      obtain ⟨hs2, hw2⟩ := virtio_add_guest_region_ok hwf hsort (hc c (by simp)) hadd
      exact ih m2 m (fun x hx => hc x (by simp [hx])) hw2 hs2 hok

/-- C7 (amended): for any sequence of add_region calls whose arguments have
    nonzero length and a non-wrapping guest range, a fully successful sequence
    starting from the empty map produces a region array that is strictly sorted
    by gpa with pairwise disjoint ranges; moreover, on any map reachable this
    way, an insertion whose range intersects an existing region is rejected
    with EINVAL when the table is not full (the C code then leaves the map
    unchanged), and any insertion into a table already holding 16 regions is
    rejected with ENOSPC, leaving the map unchanged.  The amendment restricts
    the calls to nonzero-length, non-wrapping arguments: the unrestricted claim
    is refuted by c7_counterexample_zero_length_insert. -/
theorem c7_add_region_correct (calls : List add_call) (m : List virtio_memory_region)
    (hcalls : ∀ c ∈ calls, call_wf c)
    (hok : apply_adds calls [] = .ok m) :
    List.Pairwise (fun a b => a.gpa < b.gpa ∧ a.gpa + a.len ≤ b.gpa) m ∧
    (∀ gpa len hva ro, region_wf (virtio_memory_region.mk gpa len hva ro) →
      m.length ≠ VIRTIO_MEMORY_MAX_REGIONS →
      (∃ x ∈ m, ranges_intersect x (virtio_memory_region.mk gpa len hva ro)) →
      virtio_add_guest_region m gpa len hva ro = .error (-22)) ∧
    (∀ (m16 : List virtio_memory_region) gpa len hva ro,
      m16.length = VIRTIO_MEMORY_MAX_REGIONS →
      virtio_add_guest_region m16 gpa len hva ro = .error (-28)) := by
  obtain ⟨hsort, hwf⟩ := apply_adds_inv calls [] m hcalls (by simp) trivial hok
  refine ⟨mem_sorted_pairwise hsort hwf, ?_, ?_⟩
  · intro gpa len hva ro hcwf hnfull hint
    unfold virtio_add_guest_region
    rw [if_neg hnfull]
    exact insert_region_rejects m none (virtio_memory_region.mk gpa len hva ro)
      hwf hsort hcwf (by intro p hp; cases hp) (Or.inr hint)
  · intro m16 gpa len hva ro hfull
    unfold virtio_add_guest_region
    rw [if_pos hfull]

/-- C7 counterexample: the claim quantifies over every successful sequence of
    add_region calls.  Inserting a zero-length region at gpa 5 and then a
    one-byte region at gpa 5 both succeed (the overlap test computes
    base + len - 1 in u64, which is 4 for the zero-length region), yet the
    resulting array holds two regions with equal gpa: it is not strictly
    sorted. -/
theorem c7_counterexample_zero_length_insert :
    apply_adds [add_call.mk 5 0 100 false, add_call.mk 5 1 200 false] [] =
      .ok [virtio_memory_region.mk 5 0 100 false, virtio_memory_region.mk 5 1 200 false] ∧
    ¬ List.Pairwise (fun a b : virtio_memory_region => a.gpa < b.gpa)
      [virtio_memory_region.mk 5 0 100 false, virtio_memory_region.mk 5 1 200 false] :=
  ⟨rfl, by decide⟩

/-- Witness for the amended C7 theorem: three well-formed insertions (the third
    landing between the first two) yield a strictly sorted disjoint array, an
    overlapping fourth insertion is rejected with EINVAL, and insertion into a
    full 16-entry table is rejected with ENOSPC. -/
theorem c7_witness :
    List.Pairwise (fun a b => a.gpa < b.gpa ∧ a.gpa + a.len ≤ b.gpa)
      [virtio_memory_region.mk 4096 4096 11 false, virtio_memory_region.mk 8192 4096 33 false,
        virtio_memory_region.mk 12288 4096 22 false] ∧
    virtio_add_guest_region
      [virtio_memory_region.mk 4096 4096 11 false, virtio_memory_region.mk 8192 4096 33 false,
        virtio_memory_region.mk 12288 4096 22 false] 6144 4096 99 false = .error (-22) ∧
    virtio_add_guest_region
      ((List.range 16).map (fun i => virtio_memory_region.mk (4096 * (i + 1)) 4096 0 false))
      262144 4096 7 false = .error (-28) := by
  have h := c7_add_region_correct
    [add_call.mk 4096 4096 11 false, add_call.mk 12288 4096 22 false,
      add_call.mk 8192 4096 33 false]
    [virtio_memory_region.mk 4096 4096 11 false, virtio_memory_region.mk 8192 4096 33 false,
      virtio_memory_region.mk 12288 4096 22 false]
    (by decide) rfl
  refine ⟨h.1, ?_, ?_⟩
  · refine h.2.1 6144 4096 99 false (by decide) (by decide) ?_
    exact ⟨virtio_memory_region.mk 4096 4096 11 false, by decide, by decide⟩
  · exact h.2.2 _ 262144 4096 7 false (by decide)

/-! ## Iterator lemmas shared by claims C4 and C5 -/

theorem next_buffer_of_broken (w : World) {vq : virtqueue} (it : virtqueue_buffer_iter)
    (h : vq.is_broken = true) :
    virtqueue_next_buffer w vq it = (none, vq, it) := by
  unfold virtqueue_next_buffer
  rw [if_pos h]

theorem next_buffer_of_finished (w : World) {vq : virtqueue} {it : virtqueue_buffer_iter}
    (hb : vq.is_broken = false) (hc : it.cur = VIRTQ_INVALID_DESC_ID) :
    virtqueue_next_buffer w vq it = (none, vq, it) := by
  unfold virtqueue_next_buffer
  rw [hb, if_neg (by simp), if_pos hc]

theorem yield_phase_none {vq vq2 : virtqueue} {it0 it2 : virtqueue_buffer_iter}
    {d : virtq_desc}
    (h : yield_phase vq it0 d = (none, vq2, it2)) :
    vq2.is_broken = true ∧ it2.cur = VIRTQ_INVALID_DESC_ID ∧ it2.nseen = it0.nseen + 1 := by
  unfold yield_phase brokenResult at h
  repeat' split at h
  all_goals simp only [Prod.mk.injEq] at h
  all_goals obtain ⟨h1, h2, h3⟩ := h
  all_goals first
    | exact Option.noConfusion h1
    | (subst h2; subst h3; simp)

theorem yield_phase_some {vq vq2 : virtqueue} {it0 it2 : virtqueue_buffer_iter}
    {d : virtq_desc} {b : virtqueue_buffer}
    (h : yield_phase vq it0 d = (some b, vq2, it2)) :
    vq2 = vq ∧ it2.nseen = it0.nseen + 1 ∧ it0.nseen + 1 ≤ vq.qsize := by
  unfold yield_phase brokenResult at h
  repeat' split at h
  all_goals simp only [Prod.mk.injEq] at h
  all_goals obtain ⟨h1, h2, h3⟩ := h
  all_goals first
    | exact Option.noConfusion h1
    | (subst h2; subst h3; refine ⟨rfl, by simp, by omega⟩)

theorem enter_indirect_none {w : World} {vq vq2 : virtqueue}
    {it it2 : virtqueue_buffer_iter} {d : virtq_desc}
    (h : enter_indirect w vq it d = (none, vq2, it2)) :
    vq2.is_broken = true := by
  unfold enter_indirect brokenResult at h
  repeat' split at h
  all_goals first
    | (simp only [Prod.mk.injEq] at h
       obtain ⟨h1, h2, h3⟩ := h
       first
         | exact Option.noConfusion h1
         | (subst h2; simp))
    | exact (yield_phase_none h).1

theorem enter_indirect_some {w : World} {vq vq2 : virtqueue}
    {it it2 : virtqueue_buffer_iter} {d : virtq_desc} {b : virtqueue_buffer}
    (h : enter_indirect w vq it d = (some b, vq2, it2)) :
    vq2 = vq ∧ it2.nseen = it.nseen + 2 ∧ it.nseen + 2 ≤ vq.qsize := by
  unfold enter_indirect brokenResult at h
  repeat' split at h
  all_goals first
    | (simp only [Prod.mk.injEq] at h
       obtain ⟨h1, h2, h3⟩ := h
       exact Option.noConfusion h1)
    | (obtain ⟨ha, hb2, hc⟩ := yield_phase_some h
       refine ⟨ha, ?_, ?_⟩ <;> simp_all)

theorem next_buffer_none_dead (w : World) {vq vq2 : virtqueue}
    {it it2 : virtqueue_buffer_iter}
    (h : virtqueue_next_buffer w vq it = (none, vq2, it2)) :
    vq2.is_broken = true ∨ it2.cur = VIRTQ_INVALID_DESC_ID := by
  unfold virtqueue_next_buffer at h
  repeat' split at h
  all_goals first
    | (left; exact enter_indirect_none h)
    | (left; exact (yield_phase_none h).1)
    | (simp only [Prod.mk.injEq] at h
       obtain ⟨h1, h2, h3⟩ := h
       subst h2; subst h3
       simp_all)

theorem next_buffer_some_facts (w : World) {vq vq2 : virtqueue}
    {it it2 : virtqueue_buffer_iter} {b : virtqueue_buffer}
    (h : virtqueue_next_buffer w vq it = (some b, vq2, it2)) :
    vq2 = vq ∧ it.nseen + 1 ≤ it2.nseen ∧ it2.nseen ≤ vq.qsize := by
  unfold virtqueue_next_buffer at h
  repeat' split at h
  all_goals first
    | (obtain ⟨ha, hb2, hc⟩ := enter_indirect_some h
       exact ⟨ha, by omega, by omega⟩)
    | (obtain ⟨ha, hb2, hc⟩ := yield_phase_some h
       exact ⟨ha, by omega, by omega⟩)
    | (simp only [Prod.mk.injEq] at h
       obtain ⟨h1, h2, h3⟩ := h
       exact Option.noConfusion h1)

theorem runIter_dead (w : World) : ∀ (n : Nat) (vq : virtqueue) (it : virtqueue_buffer_iter),
    (vq.is_broken = true ∨ it.cur = VIRTQ_INVALID_DESC_ID) →
    runIter w n vq it = ([], vq, it) := by
  intro n
  induction n with
  | zero => intro vq it _; rfl
  | succ m ih =>
    intro vq it hd
    have hnb : virtqueue_next_buffer w vq it = (none, vq, it) := by
      by_cases hb : vq.is_broken = true
      · exact next_buffer_of_broken w it hb
      · rcases hd with hb2 | hc
        · exact absurd hb2 hb
        · exact next_buffer_of_finished w (Bool.not_eq_true vq.is_broken ▸ hb) hc
    simp [runIter, hnb, ih vq it hd]

theorem runIter_length_aux (w : World) :
    ∀ (n : Nat) (vq : virtqueue) (it : virtqueue_buffer_iter),
      (runIter w n vq it).1.length + it.nseen ≤ vq.qsize ∨
        (runIter w n vq it).1.length = 0 := by
  intro n
  induction n with
  | zero => intro vq it; right; rfl
  | succ m ih =>
    intro vq it
    cases hnb : virtqueue_next_buffer w vq it with
    | mk ob rest =>
      obtain ⟨vq2, it2⟩ := rest
      cases ob with
      | none =>
        have hd := next_buffer_none_dead w hnb
        have hrest := runIter_dead w m vq2 it2 hd
        right
        simp [runIter, hnb, hrest]
      | some b =>
        obtain ⟨heq, hle, hbound⟩ := next_buffer_some_facts w hnb
        rw [heq] at hnb
        left
        rcases ih vq it2 with hL | hR
        · simp only [runIter, hnb]
          simp only [List.length_cons]
          omega
        · simp only [runIter, hnb]
          simp only [List.length_cons, hR]
          omega

theorem runIter_length_le (w : World) (n : Nat) (vq : virtqueue)
    (it : virtqueue_buffer_iter) :
    (runIter w n vq it).1.length ≤ vq.qsize := by
  rcases runIter_length_aux w n vq it with h | h <;> omega

theorem iterState_eq_runIter (w : World) :
    ∀ (n : Nat) (vq : virtqueue) (it : virtqueue_buffer_iter),
      iterState w n (vq, it) = ((runIter w n vq it).2.1, (runIter w n vq it).2.2) := by
  intro n
  induction n with
  | zero => intro vq it; rfl
  | succ m ih =>
    intro vq it
    cases hnb : virtqueue_next_buffer w vq it with
    | mk ob rest =>
      obtain ⟨vq2, it2⟩ := rest
      cases ob with
      | none => simp [iterState, runIter, hnb, ih]
      | some b => simp [iterState, runIter, hnb, ih]

theorem next_buffer_step_direct (w : World) (vq : virtqueue) (it : virtqueue_buffer_iter)
    (hb : vq.is_broken = false) (hcur : it.cur ≠ VIRTQ_INVALID_DESC_ID)
    (hni : hasFlag (readDesc w it.ptbl it.cur).flags VIRTQ_DESC_F_INDIRECT = false) :
    virtqueue_next_buffer w vq it = yield_phase vq it (readDesc w it.ptbl it.cur) := by
  unfold virtqueue_next_buffer
  rw [hb]
  rw [if_neg (by simp)]
  rw [if_neg hcur]
  rw [hni]
  rw [if_neg (by simp)]

theorem yield_phase_step_next (vq : virtqueue) (it : virtqueue_buffer_iter) (d : virtq_desc)
    (hn : ¬ vq.qsize < it.nseen + 1) (hlen : ¬ d.len = 0) {hva : Nat}
    (hmap : map_buffer vq d = some hva)
    (hnext : hasFlag d.flags VIRTQ_DESC_F_NEXT = true)
    (hbound : ¬ it.tbl_size ≤ d.next) :
    yield_phase vq it d =
      (some (virtqueue_buffer.mk hva d.len (decide ((d.flags &&& VIRTQ_DESC_F_WRITE) = 0))),
        vq, { it with cur := d.next, nseen := it.nseen + 1 }) := by
  unfold yield_phase
  rw [if_neg hn, if_neg hlen, hmap]
  simp [hnext, hbound]

theorem yield_phase_step_last (vq : virtqueue) (it : virtqueue_buffer_iter) (d : virtq_desc)
    (hn : ¬ vq.qsize < it.nseen + 1) (hlen : ¬ d.len = 0) {hva : Nat}
    (hmap : map_buffer vq d = some hva)
    (hnext : hasFlag d.flags VIRTQ_DESC_F_NEXT = false) :
    yield_phase vq it d =
      (some (virtqueue_buffer.mk hva d.len (decide ((d.flags &&& VIRTQ_DESC_F_WRITE) = 0))),
        vq, { it with cur := VIRTQ_INVALID_DESC_ID, nseen := it.nseen + 1 }) := by
  unfold yield_phase
  rw [if_neg hn, if_neg hlen, hmap]
  simp [hnext]

theorem chain_ok_head {w : World} {vq : virtqueue} {tbl ts x : Nat} {xs : List Nat}
    (h : chain_ok w vq tbl ts (x :: xs) = true) :
    x < ts ∧ x ≠ VIRTQ_INVALID_DESC_ID := by
  cases xs with
  | nil =>
    simp only [chain_ok, Bool.and_eq_true, decide_eq_true_eq] at h
    exact ⟨h.1.1.1, h.1.1.2⟩
  | cons y ys =>
    simp only [chain_ok, Bool.and_eq_true, decide_eq_true_eq] at h
    exact ⟨h.1.1.1.1.1, h.1.1.1.1.2⟩

theorem runIter_succ_some {w : World} {vq vq2 : virtqueue} {it it2 : virtqueue_buffer_iter}
    {b : virtqueue_buffer} (n : Nat)
    (h : virtqueue_next_buffer w vq it = (some b, vq2, it2)) :
    runIter w (n + 1) vq it =
      (b :: (runIter w n vq2 it2).1, (runIter w n vq2 it2).2.1, (runIter w n vq2 it2).2.2) := by
  simp only [runIter, h]

theorem chain_run (w : World) (vq : virtqueue) :
    ∀ (idxs : List Nat) (it : virtqueue_buffer_iter),
      vq.is_broken = false →
      chain_ok w vq it.ptbl it.tbl_size idxs = true →
      idxs.head? = some it.cur →
      it.nseen + idxs.length ≤ vq.qsize →
      runIter w idxs.length vq it =
        (idxs.map (buffer_of w vq it.ptbl), vq,
          { it with cur := VIRTQ_INVALID_DESC_ID, nseen := it.nseen + idxs.length }) := by
  intro idxs
  induction idxs with
  | nil => intro it _ _ hcur _; cases hcur
  | cons i rest ih =>
    intro it hb hok hcur hn
    obtain rfl : i = it.cur := by
      simp only [List.head?] at hcur
      injection hcur
    cases rest with
    | nil =>
      simp only [chain_ok, chain_desc_ok, Bool.and_eq_true, Bool.not_eq_true',
        decide_eq_true_eq, Option.isSome_iff_exists] at hok
      obtain ⟨⟨⟨hlt, hninv⟩, ⟨hdlen, hdni⟩, hva, hmap⟩, hnn⟩ := hok
      have hstep := next_buffer_step_direct w vq it hb hninv hdni
      rw [yield_phase_step_last vq it _
        (by simp only [List.length_cons, List.length_nil] at hn; omega) hdlen hmap hnn] at hstep
      simp only [List.length_cons, List.length_nil, List.map, buffer_of]
      simp only [runIter, hstep, hmap, Option.getD_some]
    | cons j rest2 =>
      simp only [chain_ok, chain_desc_ok, Bool.and_eq_true, Bool.not_eq_true',
        decide_eq_true_eq, Option.isSome_iff_exists] at hok
      obtain ⟨⟨⟨⟨⟨hlt, hninv⟩, ⟨hdlen, hdni⟩, hva, hmap⟩, hnn⟩, hnxt⟩, hok2b⟩ := hok
      have hjlt := (chain_ok_head hok2b).1
      have hstep := next_buffer_step_direct w vq it hb hninv hdni
      have hn2 : it.nseen + (rest2.length + 2) ≤ vq.qsize := by simpa using hn
      rw [yield_phase_step_next vq it _ (by omega) hdlen hmap hnn (by omega)] at hstep
      rw [hnxt] at hstep
      have hih := ih { it with cur := j, nseen := it.nseen + 1 } hb hok2b (by simp)
        (by simp only [List.length_cons]; omega)
      simp only [List.length_cons] at hih
      have hrun := runIter_succ_some (rest2.length + 1) hstep
      simp only [List.length_cons]
      rw [hrun, hih]
      have e : it.nseen + 1 + (rest2.length + 1) = it.nseen + (rest2.length + 1 + 1) := by omega
      simp [List.map_cons, buffer_of, hmap, e]

theorem iterState_succ_back (w : World) :
    ∀ (n : Nat) (s : virtqueue × virtqueue_buffer_iter),
      iterState w (n + 1) s =
        ((virtqueue_next_buffer w (iterState w n s).1 (iterState w n s).2).2.1,
         (virtqueue_next_buffer w (iterState w n s).1 (iterState w n s).2).2.2) := by
  intro n
  induction n with
  | zero => intro s; rfl
  | succ m ih =>
    intro s
    have hpeel : iterState w (m + 1 + 1) s =
        iterState w (m + 1) ((virtqueue_next_buffer w s.1 s.2).2.1,
          (virtqueue_next_buffer w s.1 s.2).2.2) := rfl
    have hpeel2 : iterState w (m + 1) s =
        iterState w m ((virtqueue_next_buffer w s.1 s.2).2.1,
          (virtqueue_next_buffer w s.1 s.2).2.2) := rfl
    rw [hpeel, ih, hpeel2]

theorem chain_run_indirect (w : World) (vq : virtqueue) (h tbl : Nat) (idxs : List Nat)
    (hb : vq.is_broken = false)
    (hcur : h ≠ VIRTQ_INVALID_DESC_ID)
    (hind : indirect_head_ok w vq h tbl = true)
    (hhd : idxs.head? = some 0)
    (hok : chain_ok w vq tbl ((readDesc w vq.descTbl h).len / 16) idxs = true)
    (hlen : idxs.length + 1 ≤ vq.qsize) :
    runIter w idxs.length vq (start_desc_chain vq h) =
      (idxs.map (buffer_of w vq tbl), vq,
        virtqueue_buffer_iter.mk h VIRTQ_INVALID_DESC_ID tbl
          ((readDesc w vq.descTbl h).len / 16) true (idxs.length + 1)) := by
  simp only [indirect_head_ok, Bool.and_eq_true, Bool.not_eq_true', decide_eq_true_eq] at hind
  obtain ⟨⟨⟨hI, hN⟩, hL16⟩, hmap0⟩ := hind
  cases idxs with
  | nil => cases hhd
  | cons i rest =>
    have hi : i = 0 := by simpa using hhd
    subst hi
    have hcd : chain_desc_ok w vq tbl 0 = true := by
      cases rest <;> (simp only [chain_ok, Bool.and_eq_true] at hok; tauto)
    have hd0 : hasFlag (readDesc w tbl 0).flags VIRTQ_DESC_F_INDIRECT = false := by
      simp only [chain_desc_ok, Bool.and_eq_true, Bool.not_eq_true'] at hcd
      exact hcd.1.2
    have hstep0 : virtqueue_next_buffer w vq (start_desc_chain vq h) =
        yield_phase vq (virtqueue_buffer_iter.mk h 0 tbl
          ((readDesc w vq.descTbl h).len / 16) true 1) (readDesc w tbl 0) := by
      simp [virtqueue_next_buffer, start_desc_chain, enter_indirect, hb, hI, hN, hL16,
        hmap0, hcur, hd0]
    cases rest with
    | nil =>
      simp only [chain_ok, chain_desc_ok, Bool.and_eq_true, Bool.not_eq_true',
        decide_eq_true_eq, Option.isSome_iff_exists] at hok
      obtain ⟨⟨⟨hlt0, hninv0⟩, ⟨hdlen, hdni⟩, hva, hmap⟩, hnn⟩ := hok
      simp only [List.length_cons, List.length_nil] at hlen
      have hy := yield_phase_step_last vq (virtqueue_buffer_iter.mk h 0 tbl
          ((readDesc w vq.descTbl h).len / 16) true 1) (readDesc w tbl 0)
        (by dsimp only; omega) hdlen hmap hnn
      have hstep := hstep0.trans hy
      simp only [List.length_cons, List.length_nil]
      rw [runIter_succ_some 0 hstep]
      simp [runIter, buffer_of, hmap]
    | cons j rest2 =>
      simp only [chain_ok, chain_desc_ok, Bool.and_eq_true, Bool.not_eq_true',
        decide_eq_true_eq, Option.isSome_iff_exists] at hok
      obtain ⟨⟨⟨⟨⟨hlt0, hninv0⟩, ⟨hdlen, hdni⟩, hva, hmap⟩, hnn⟩, hnxt⟩, hok2⟩ := hok
      have hjlt := (chain_ok_head hok2).1
      simp only [List.length_cons, List.length_nil] at hlen
      have hy := yield_phase_step_next vq (virtqueue_buffer_iter.mk h 0 tbl
          ((readDesc w vq.descTbl h).len / 16) true 1) (readDesc w tbl 0)
        (by dsimp only; omega) hdlen hmap hnn (by dsimp only; omega)
      rw [hnxt] at hy
      dsimp only at hy
      have hstep := hstep0.trans hy
      have hchain := chain_run w vq (j :: rest2)
        (virtqueue_buffer_iter.mk h j tbl ((readDesc w vq.descTbl h).len / 16) true (1 + 1))
        hb hok2 (by simp) (by dsimp only; simp only [List.length_cons]; omega)
      simp only [List.length_cons] at hchain
      simp only [List.length_cons, List.length_nil]
      rw [runIter_succ_some (rest2.length + 1) hstep]
      rw [hchain]
      have e : 1 + 1 + (rest2.length + 1) = rest2.length + 1 + 1 + 1 := by omega
      simp [buffer_of, hmap, e]

theorem chain_desc_ok_mem_congr {vq vq2 : virtqueue} (w : World) (hmem : vq2.mem = vq.mem)
    (tbl i : Nat) : chain_desc_ok w vq2 tbl i = chain_desc_ok w vq tbl i := by
  unfold chain_desc_ok map_buffer
  rw [hmem]

theorem chain_ok_mem_congr {vq vq2 : virtqueue} {w : World} (hmem : vq2.mem = vq.mem)
    (tbl ts : Nat) : ∀ idxs : List Nat, chain_ok w vq2 tbl ts idxs = chain_ok w vq tbl ts idxs
  | [] => rfl
  | [i] => by
    unfold chain_ok
    rw [chain_desc_ok_mem_congr w hmem]
  | i :: j :: rest => by
    unfold chain_ok
    rw [chain_desc_ok_mem_congr w hmem, chain_ok_mem_congr hmem tbl ts (j :: rest)]

theorem buffer_of_mem_congr {vq vq2 : virtqueue} (w : World) (hmem : vq2.mem = vq.mem)
    (tbl i : Nat) : buffer_of w vq2 tbl i = buffer_of w vq tbl i := by
  unfold buffer_of map_buffer
  rw [hmem]

theorem indirect_head_ok_mem_congr {vq vq2 : virtqueue} (w : World) (hmem : vq2.mem = vq.mem)
    (hdt : vq2.descTbl = vq.descTbl) (h tbl : Nat) :
    indirect_head_ok w vq2 h tbl = indirect_head_ok w vq h tbl := by
  unfold indirect_head_ok map_buffer
  rw [hmem, hdt]

/-- C4 (amended): for every valid driver-built descriptor chain - nonzero
    lengths, in-bounds next links distinct from the sentinel id, buffers mapped
    in the memory map - virtqueue_dequeue_avail followed by repeated
    virtqueue_next_buffer yields exactly the chain buffers in order (each with
    the descriptor's mapped pointer, length and read-only flag), then returns
    none, leaving the queue not broken: provided the chain length k satisfies
    k <= qsize for a direct chain and k + 1 <= qsize for a one-level indirect
    chain, because the indirect-table transition itself consumes one unit of
    the qsize descriptor budget. -/
theorem c4_chain_iteration (w : World) (vq : virtqueue) (h tbl : Nat) (idxs : List Nat)
    (hb : vq.is_broken = false)
    (hpend : vq.last_seen_avail % U16 ≠ vq.availIdx % U16)
    (hh : vq.availRing (get_index vq vq.last_seen_avail) % U16 = h)
    (hvalid :
      (tbl = vq.descTbl ∧ idxs.head? = some h ∧
        chain_ok w vq vq.descTbl vq.qsize idxs = true ∧ idxs.length ≤ vq.qsize) ∨
      (h < vq.qsize ∧ h ≠ VIRTQ_INVALID_DESC_ID ∧ indirect_head_ok w vq h tbl = true ∧
        idxs.head? = some 0 ∧
        chain_ok w vq tbl ((readDesc w vq.descTbl h).len / 16) idxs = true ∧
        idxs.length + 1 ≤ vq.qsize)) :
    ∃ s : virtqueue × virtqueue_buffer_iter,
      virtqueue_dequeue_avail vq = some s ∧
      (runIter w idxs.length s.1 s.2).1 = idxs.map (buffer_of w vq tbl) ∧
      (runIter w idxs.length s.1 s.2).2.1.is_broken = false ∧
      callResult w idxs.length s = none ∧
      (iterState w (idxs.length + 1) s).1.is_broken = false := by
  obtain ⟨vq1, hv1mem, hv1qs, hv1b, hv1dt, hdq⟩ :
      ∃ vq1 : virtqueue, vq1.mem = vq.mem ∧ vq1.qsize = vq.qsize ∧ vq1.is_broken = false ∧
        vq1.descTbl = vq.descTbl ∧
        virtqueue_dequeue_avail vq = some (vq1, start_desc_chain vq h) := by
    refine ⟨{ vq with last_seen_avail := (vq.last_seen_avail + 1) % U16 }, rfl, rfl, hb, rfl, ?_⟩
    unfold virtqueue_dequeue_avail
    rw [hb]
    rw [if_neg (by simp), if_pos hpend]
    dsimp only
    rw [hh]
  have key : (runIter w idxs.length vq1 (start_desc_chain vq h)).1 =
        idxs.map (buffer_of w vq tbl) ∧
      (runIter w idxs.length vq1 (start_desc_chain vq h)).2.1 = vq1 ∧
      (runIter w idxs.length vq1 (start_desc_chain vq h)).2.2.cur = VIRTQ_INVALID_DESC_ID := by
    rcases hvalid with ⟨htbl, hhd, hok, hl⟩ | ⟨hlt, hninv, hind, hhd, hok, hl⟩
    · subst htbl
      have hok1 : chain_ok w vq1 vq.descTbl vq.qsize idxs = true := by
        rw [chain_ok_mem_congr hv1mem]; exact hok
      have hr := chain_run w vq1 idxs (start_desc_chain vq h) hv1b hok1 hhd
        (show (0 : Nat) + idxs.length ≤ vq1.qsize by rw [hv1qs]; omega)
      have hbf : buffer_of w vq1 (start_desc_chain vq h).ptbl = buffer_of w vq vq.descTbl :=
        funext fun i => buffer_of_mem_congr w hv1mem _ i
      rw [hr]
      exact ⟨by rw [hbf], rfl, rfl⟩
    · have hok1 : chain_ok w vq1 tbl ((readDesc w vq1.descTbl h).len / 16) idxs = true := by
        rw [hv1dt, chain_ok_mem_congr hv1mem]; exact hok
      have hind1 : indirect_head_ok w vq1 h tbl = true := by
        rw [indirect_head_ok_mem_congr w hv1mem hv1dt]; exact hind
      have hsd : start_desc_chain vq1 h = start_desc_chain vq h := by
        unfold start_desc_chain
        rw [hv1dt, hv1qs]
      have hr := chain_run_indirect w vq1 h tbl idxs hv1b hninv hind1 hhd hok1
        (by rw [hv1qs]; exact hl)
      rw [hsd] at hr
      have hbf : buffer_of w vq1 tbl = buffer_of w vq tbl :=
        funext fun i => buffer_of_mem_congr w hv1mem tbl i
      rw [hr]
      exact ⟨by rw [hbf], rfl, rfl⟩
  obtain ⟨k1, k2, k3⟩ := key
  refine ⟨(vq1, start_desc_chain vq h), hdq, k1, ?_, ?_, ?_⟩
  · show (runIter w idxs.length vq1 (start_desc_chain vq h)).2.1.is_broken = false
    rw [k2]
    exact hv1b
  · show (virtqueue_next_buffer w
        (iterState w idxs.length (vq1, start_desc_chain vq h)).1
        (iterState w idxs.length (vq1, start_desc_chain vq h)).2).1 = none
    rw [iterState_eq_runIter w idxs.length vq1 (start_desc_chain vq h)]
    dsimp only
    rw [next_buffer_of_finished w (by rw [k2]; exact hv1b) k3]
  · show (iterState w (idxs.length + 1) (vq1, start_desc_chain vq h)).1.is_broken = false
    rw [iterState_succ_back w idxs.length (vq1, start_desc_chain vq h)]
    dsimp only
    rw [iterState_eq_runIter w idxs.length vq1 (start_desc_chain vq h)]
    dsimp only
    rw [next_buffer_of_finished w (by rw [k2]; exact hv1b) k3]
    dsimp only
    rw [k2]
    exact hv1b

/-- Witness for C4: a direct two-descriptor chain on a queue of size four is
    dequeued and iterated to exactly its two buffers, with the follow-up call
    returning none and the queue left unbroken. -/
theorem c4_witness :
    vq2c.is_broken = false ∧
    (∃ s : virtqueue × virtqueue_buffer_iter,
      virtqueue_dequeue_avail vq2c = some s ∧
      (runIter w4d ([0, 1] : List Nat).length s.1 s.2).1 =
        ([0, 1] : List Nat).map (buffer_of w4d vq2c 0) ∧
      (runIter w4d ([0, 1] : List Nat).length s.1 s.2).2.1.is_broken = false ∧
      callResult w4d ([0, 1] : List Nat).length s = none ∧
      (iterState w4d (([0, 1] : List Nat).length + 1) s).1.is_broken = false) :=
  ⟨by decide, c4_chain_iteration w4d vq2c 0 0 [0, 1] (by decide) (by decide) (by decide)
    (Or.inl ⟨by decide, by decide, by decide, by decide⟩)⟩

theorem yield_phase_cases (vq : virtqueue) (it : virtqueue_buffer_iter) (d : virtq_desc)
    (hnext : hasFlag d.flags VIRTQ_DESC_F_NEXT = true) :
    ((yield_phase vq it d).2.1.is_broken = true ∧ (yield_phase vq it d).1 = none) ∨
    (∃ b, yield_phase vq it d =
      (some b, vq, { it with cur := d.next, nseen := it.nseen + 1 })) := by
  by_cases hq : vq.qsize < it.nseen + 1
  · left
    unfold yield_phase
    rw [if_pos hq]
    exact ⟨rfl, rfl⟩
  · by_cases hlen : d.len = 0
    · left
      unfold yield_phase
      rw [if_neg hq, if_pos hlen]
      exact ⟨rfl, rfl⟩
    · cases hm : map_buffer vq d with
      | none =>
        left
        unfold yield_phase
        rw [if_neg hq, if_neg hlen, hm]
        exact ⟨rfl, rfl⟩
      | some hva =>
        by_cases hbd : it.tbl_size ≤ d.next
        · left
          unfold yield_phase
          rw [if_neg hq, if_neg hlen, hm]
          simp [hnext, hbd, brokenResult]
        · right
          exact ⟨_, yield_phase_step_next vq it d hq hlen hm hnext hbd⟩

theorem cyc_step (w : World) (vq : virtqueue) (it : virtqueue_buffer_iter)
    (seq : Nat → Nat) (k : Nat)
    (hb : vq.is_broken = false)
    (hcyc : cyc_seq_claim w it.ptbl it.is_indirect seq)
    (hninv : ∀ n, seq n ≠ VIRTQ_INVALID_DESC_ID)
    (hcur : it.cur = seq k) :
    ((virtqueue_next_buffer w vq it).2.1.is_broken = true ∧
      (virtqueue_next_buffer w vq it).1 = none) ∨
    (∃ b, virtqueue_next_buffer w vq it =
      (some b, vq, { it with cur := seq (k + 1), nseen := it.nseen + 1 })) := by
  obtain ⟨hci, hcn, hclink⟩ := hcyc k
  by_cases hind : hasFlag (readDesc w it.ptbl (seq k)).flags VIRTQ_DESC_F_INDIRECT = true
  · have hii : it.is_indirect = true := by
      by_contra hno
      rw [hci (by simpa using hno)] at hind
      exact Bool.noConfusion hind
    left
    have heq : virtqueue_next_buffer w vq it = brokenResult vq it := by
      unfold virtqueue_next_buffer enter_indirect
      rw [hb]
      rw [if_neg (by simp), if_neg (by rw [hcur]; exact hninv k), hcur]
      rw [if_pos hind, if_pos hii]
    rw [heq]
    exact ⟨rfl, rfl⟩
  · have hstep : virtqueue_next_buffer w vq it =
        yield_phase vq it (readDesc w it.ptbl (seq k)) := by
      unfold virtqueue_next_buffer
      rw [hb]
      rw [if_neg (by simp), if_neg (by rw [hcur]; exact hninv k), hcur]
      rw [if_neg hind]
    rcases yield_phase_cases vq it (readDesc w it.ptbl (seq k)) hcn with ⟨h1, h2⟩ | ⟨b, hy⟩
    · left
      rw [hstep]
      exact ⟨h1, h2⟩
    · right
      rw [hclink] at hy
      exact ⟨b, hstep.trans hy⟩

theorem iterState_peel {w : World} {vq vq2 : virtqueue} {it it2 : virtqueue_buffer_iter}
    {b : Option virtqueue_buffer} (n : Nat)
    (hstep : virtqueue_next_buffer w vq it = (b, vq2, it2)) :
    iterState w (n + 1) (vq, it) = iterState w n (vq2, it2) := by
  simp [iterState, hstep]

theorem callResult_peel {w : World} {vq vq2 : virtqueue} {it it2 : virtqueue_buffer_iter}
    {b : Option virtqueue_buffer} (n : Nat)
    (hstep : virtqueue_next_buffer w vq it = (b, vq2, it2)) :
    callResult w (n + 1) (vq, it) = callResult w n (vq2, it2) := by
  unfold callResult
  rw [iterState_peel n hstep]

theorem cyc_run (w : World) (seq : Nat → Nat)
    (hninv : ∀ n, seq n ≠ VIRTQ_INVALID_DESC_ID) :
    ∀ (r k : Nat) (vq : virtqueue) (it : virtqueue_buffer_iter),
      vq.is_broken = false →
      cyc_seq_claim w it.ptbl it.is_indirect seq →
      it.cur = seq k →
      vq.qsize < it.nseen + (r + 1) →
      ∃ m, 1 ≤ m ∧ m ≤ r + 1 ∧ callResult w (m - 1) (vq, it) = none ∧
        (iterState w m (vq, it)).1.is_broken = true := by
  intro r
  induction r with
  | zero =>
    intro k vq it hb hcyc hcur hqs
    rcases cyc_step w vq it seq k hb hcyc hninv hcur with ⟨h1, h2⟩ | ⟨b, hstep⟩
    · exact ⟨1, le_refl 1, le_refl 1, h2, h1⟩
    · exfalso
      obtain ⟨_, hle, hbound⟩ := next_buffer_some_facts w hstep
      dsimp only at hle hbound
      omega
  | succ rr ih =>
    intro k vq it hb hcyc hcur hqs
    rcases cyc_step w vq it seq k hb hcyc hninv hcur with ⟨h1, h2⟩ | ⟨b, hstep⟩
    · exact ⟨1, le_refl 1, by omega, h2, h1⟩
    · obtain ⟨m, hm1, hm2, hcall, hbrk⟩ := ih (k + 1) vq
        { it with cur := seq (k + 1), nseen := it.nseen + 1 } hb hcyc rfl
        (by dsimp only; omega)
      obtain ⟨m2, rfl⟩ : ∃ m2, m = m2 + 1 := ⟨m - 1, by omega⟩
      refine ⟨m2 + 1 + 1, by omega, by omega, ?_, ?_⟩
      · have e : m2 + 1 + 1 - 1 = m2 + 1 := by omega
        rw [e, callResult_peel m2 hstep]
        simpa using hcall
      · rw [iterState_peel (m2 + 1) hstep]
        exact hbrk

/-- C5 (amended): for every dequeued chain whose link walk never terminates -
    a cycle, direct or one-level indirect - none of whose indices equals the
    sentinel id 32768 (which collides with valid entry indices in indirect
    tables of more than 32768 entries), some call among the first qsize + 1
    returns none with the virtqueue marked broken at that point, and no run of
    the iterator ever yields more than qsize buffers. -/
theorem c5_cycle_breaks_within_budget (w : World) (vq : virtqueue) (h tbl : Nat)
    (seq : Nat → Nat)
    (hb : vq.is_broken = false)
    (hpend : vq.last_seen_avail % U16 ≠ vq.availIdx % U16)
    (hh : vq.availRing (get_index vq vq.last_seen_avail) % U16 = h)
    (hninv : ∀ n, seq n ≠ VIRTQ_INVALID_DESC_ID)
    (hcyc :
      (tbl = vq.descTbl ∧ seq 0 = h ∧ cyc_seq_claim w vq.descTbl false seq) ∨
      (h ≠ VIRTQ_INVALID_DESC_ID ∧ indirect_head_ok w vq h tbl = true ∧ seq 0 = 0 ∧
        cyc_seq_claim w tbl true seq)) :
    ∃ s : virtqueue × virtqueue_buffer_iter,
      virtqueue_dequeue_avail vq = some s ∧
      (∃ m, 1 ≤ m ∧ m ≤ vq.qsize + 1 ∧ callResult w (m - 1) s = none ∧
        (iterState w m s).1.is_broken = true) ∧
      ∀ n, (runIter w n s.1 s.2).1.length ≤ vq.qsize := by
  obtain ⟨vq1, hv1mem, hv1qs, hv1b, hv1dt, hdq⟩ :
      ∃ vq1 : virtqueue, vq1.mem = vq.mem ∧ vq1.qsize = vq.qsize ∧ vq1.is_broken = false ∧
        vq1.descTbl = vq.descTbl ∧
        virtqueue_dequeue_avail vq = some (vq1, start_desc_chain vq h) := by
    refine ⟨{ vq with last_seen_avail := (vq.last_seen_avail + 1) % U16 }, rfl, rfl, hb, rfl, ?_⟩
    unfold virtqueue_dequeue_avail
    rw [hb]
    rw [if_neg (by simp), if_pos hpend]
    dsimp only
    rw [hh]
  refine ⟨(vq1, start_desc_chain vq h), hdq, ?_, ?_⟩
  · rcases hcyc with ⟨htbl, hs0, hcycD⟩ | ⟨hninvh, hind, hs0, hcycI⟩
    · obtain ⟨m, hm1, hm2, hcall, hbrk⟩ := cyc_run w seq hninv vq1.qsize 0 vq1
        (start_desc_chain vq h) hv1b hcycD hs0.symm
        (show vq1.qsize < 0 + (vq1.qsize + 1) by omega)
      exact ⟨m, hm1, by omega, hcall, hbrk⟩
    · have hind1 : indirect_head_ok w vq1 h tbl = true := by
        rw [indirect_head_ok_mem_congr w hv1mem hv1dt]; exact hind
      simp only [indirect_head_ok, Bool.and_eq_true, Bool.not_eq_true',
        decide_eq_true_eq] at hind1
      obtain ⟨⟨⟨hI, hN⟩, hL16⟩, hmap0⟩ := hind1
      rw [hv1dt] at hI hN hL16 hmap0
      obtain ⟨hci0, hcn0, hclink0⟩ := hcycI 0
      rw [hs0] at hcn0 hclink0
      by_cases hI0 : hasFlag (readDesc w tbl 0).flags VIRTQ_DESC_F_INDIRECT = true
      · have hstep : virtqueue_next_buffer w vq1 (start_desc_chain vq h) =
            brokenResult vq1 (virtqueue_buffer_iter.mk h 0 tbl
              ((readDesc w vq.descTbl h).len / 16) true 1) := by
          simp [virtqueue_next_buffer, start_desc_chain, enter_indirect, hv1b, hI, hN, hL16,
            hmap0, hninvh, hI0]
        refine ⟨1, le_refl 1, by omega, ?_, ?_⟩
        · show (virtqueue_next_buffer w vq1 (start_desc_chain vq h)).1 = none
          rw [hstep]
          rfl
        · show (virtqueue_next_buffer w vq1 (start_desc_chain vq h)).2.1.is_broken = true
          rw [hstep]
          rfl
      · have hd0 : hasFlag (readDesc w tbl 0).flags VIRTQ_DESC_F_INDIRECT = false := by
          simpa using hI0
        have hstep0 : virtqueue_next_buffer w vq1 (start_desc_chain vq h) =
            yield_phase vq1 (virtqueue_buffer_iter.mk h 0 tbl
              ((readDesc w vq.descTbl h).len / 16) true 1) (readDesc w tbl 0) := by
          simp [virtqueue_next_buffer, start_desc_chain, enter_indirect, hv1b, hI, hN, hL16,
            hmap0, hninvh, hd0]
        rcases yield_phase_cases vq1 (virtqueue_buffer_iter.mk h 0 tbl
            ((readDesc w vq.descTbl h).len / 16) true 1) (readDesc w tbl 0) hcn0 with
          ⟨h1, h2⟩ | ⟨b, hy⟩
        · refine ⟨1, le_refl 1, by omega, ?_, ?_⟩
          · show (virtqueue_next_buffer w vq1 (start_desc_chain vq h)).1 = none
            rw [hstep0]
            exact h2
          · show (virtqueue_next_buffer w vq1 (start_desc_chain vq h)).2.1.is_broken = true
            rw [hstep0]
            exact h1
        · rw [hclink0] at hy
          dsimp only at hy
          have hstep := hstep0.trans hy
          obtain ⟨_, hle2, hb2⟩ := next_buffer_some_facts w hstep
          dsimp only at hb2
          obtain ⟨m, hm1, hm2, hcall, hbrk⟩ := cyc_run w seq hninv (vq1.qsize - 2) 1 vq1
            (virtqueue_buffer_iter.mk h (seq 1) tbl
              ((readDesc w vq.descTbl h).len / 16) true (1 + 1))
            hv1b hcycI rfl (by dsimp only; omega)
          obtain ⟨m2, rfl⟩ : ∃ m2, m = m2 + 1 := ⟨m - 1, by omega⟩
          refine ⟨m2 + 1 + 1, by omega, by omega, ?_, ?_⟩
          · have e : m2 + 1 + 1 - 1 = m2 + 1 := by omega
            rw [e, callResult_peel m2 hstep]
            simpa using hcall
          · rw [iterState_peel (m2 + 1) hstep]
            exact hbrk
  · intro n
    have hlen := runIter_length_le w n vq1 (start_desc_chain vq h)
    rw [hv1qs] at hlen
    exact hlen

/-- Witness for C5: the direct two-descriptor cycle 0 to 1 and back on a queue
    of size two is dequeued, and within qsize + 1 calls next_buffer returns
    none with the queue broken, never yielding more than qsize buffers. -/
theorem c5_witness :
    vq5d.is_broken = false ∧
    (∃ s : virtqueue × virtqueue_buffer_iter,
      virtqueue_dequeue_avail vq5d = some s ∧
      (∃ m, 1 ≤ m ∧ m ≤ vq5d.qsize + 1 ∧ callResult w5d (m - 1) s = none ∧
        (iterState w5d m s).1.is_broken = true) ∧
      ∀ n, (runIter w5d n s.1 s.2).1.length ≤ vq5d.qsize) :=
  ⟨by decide, c5_cycle_breaks_within_budget w5d vq5d 0 0 seqC5d (by decide) (by decide)
    (by decide)
    (fun n => by simp only [seqC5d, VIRTQ_INVALID_DESC_ID]; omega)
    (Or.inl ⟨by decide, by decide, by
      intro n
      rcases Nat.mod_two_eq_zero_or_one n with hn | hn
      · have hs : (n + 1) % 2 = 1 := by omega
        simp only [seqC5d, hn, hs]
        exact ⟨fun _ => by decide, by decide, by decide⟩
      · have hs : (n + 1) % 2 = 0 := by omega
        simp only [seqC5d, hn, hs]
        exact ⟨fun _ => by decide, by decide, by decide⟩⟩)⟩

end LibVhost
